import Mathlib

/-!
# Verification of `poker_chip_split` (models.py / calculator.py)

Shallow embedding of the repository's core search code.

Modelling conventions:
* Python `float` values are embedded as exact rationals (`ℚ`); all arithmetic
  appearing in the embedded code (`+`, `*`, `/`, `abs`, comparisons) is exact
  on the rationals involved.
* Python `dict`s (which preserve insertion order and have unique keys) are
  embedded as insertion-ordered association lists `List (Color × _)`; lookup is
  first-match.  Every dictionary the program builds has unique keys (they are
  built from the key list of a `dict`), so first-match lookup coincides with
  Python dict lookup, and iteration over `for color in d` with `d[color]`
  coincides with iterating the entry list.
* `np.random` draws in `_evaluate_distribution_sampled` are abstracted by an
  oracle parameter `RandOracle`: for base-combination index `bi` and variant
  index `vi`, `oracle bi vi` is the list of (color, adjustment) pairs the RNG
  chose; the code then clamps each adjustment exactly as the source does.
  Every outcome of the unseeded RNG corresponds to some oracle.
* `mp.cpu_count()` is the parameter `numCores`; `mp.Pool.map` preserves batch
  order, so the parallel map is embedded as `List.map`.
* Python exceptions raised by `calculate_optimal_split` are embedded as
  `Except CalcError`: the `ValueError` for an insufficient value pool, and the
  `ZeroDivisionError` raised at `buy_in_per_person / max_possible_chips` when
  `max_possible_chips == 0`.
* `tqdm` progress bars and `logging` calls have no semantic effect and are
  dropped.
-/

namespace PokerChipSplit

abbrev Color := String

/-- First-match lookup with default: `d.get(c, default)` / `d[c]` on an
insertion-ordered association list. -/
def lookupD {α : Type} (l : List (Color × α)) (c : Color) (d : α) : α :=
  match l.find? (fun e => e.1 == c) with
  | some e => e.2
  | none => d

/-- `sum(q[i] * v[i])`: the dot product of a quantity row with the value row
(numpy `combinations_array * values_array` summed along the row). -/
def dot (q : List ℕ) (v : List ℚ) : ℚ :=
  ((q.zip v).map (fun e => (e.1 : ℚ) * e.2)).sum

/-- First maximum of `f` over a list (`np.argmax` keeps the first maximal
index; a strict-improvement fold keeps the first maximum). -/
def argmaxBy {α : Type} (f : α → ℚ) : List α → Option α
  | [] => none
  | x :: xs => some (xs.foldl (fun b y => if f b < f y then y else b) x)

/-- Python tuple comparison `a > b` on score pairs (lexicographic). -/
def scoreGtQ (a b : ℚ × ℚ) : Prop :=
  b.1 < a.1 ∨ (a.1 = b.1 ∧ b.2 < a.2)

instance (a b : ℚ × ℚ) : Decidable (scoreGtQ a b) := by
  unfold scoreGtQ; infer_instance

/-- `int(x)` on a Python float: truncation toward zero. -/
def ratTrunc (q : ℚ) : ℤ :=
  if 0 ≤ q then ⌊q⌋ else -⌊-q⌋

/-- Slicing `l[i:i+k]` for `i = 0, k, 2k, …` (the batch split).  The fuel is
`l.length`, which suffices whenever `k > 0`; the code always uses
`k = max(1000, …) ≥ 1000`. -/
def chunkedAux {α : Type} (k : ℕ) : ℕ → List α → List (List α)
  | 0, _ => []
  | _ + 1, [] => []
  | fuel + 1, x :: xs =>
    if k = 0 then []
    else (x :: xs).take k :: chunkedAux k fuel ((x :: xs).drop k)

def chunked {α : Type} (k : ℕ) (l : List α) : List (List α) :=
  chunkedAux k l.length l

/-- `itertools.product(*ranges)`: Cartesian product, rightmost factor varying
fastest. -/
def productLists : List (List ℕ) → List (List ℕ)
  | [] => [[]]
  | r :: rs => (r.map (fun x => (productLists rs).map (fun t => x :: t))).flatten

/-- `itertools.permutations(l, r)`: length-`r` permutations of `l`, in the
order itertools emits them (by position). -/
def permutationsR {α : Type} : ℕ → List α → List (List α)
  | 0, _ => [[]]
  | n + 1, xs =>
    (xs.enum.map (fun e => (permutationsR n (xs.eraseIdx e.1)).map (e.2 :: ·))).flatten

/-- Stable insertion used by `stableSortBy`; `lt y x` means `y` must stay
strictly before `x`. -/
def insertSorted {α : Type} (lt : α → α → Bool) (x : α) : List α → List α
  | [] => [x]
  | y :: ys => if lt y x then y :: insertSorted lt x ys else x :: y :: ys

/-- Python's stable `sorted`: `lt a b` is the strict key comparison
"`a` sorts strictly before `b`"; equal keys keep their original order. -/
def stableSortBy {α : Type} (lt : α → α → Bool) (l : List α) : List α :=
  l.foldr (insertSorted lt) []

/-! ## models.py -/

/-- `ChipSet`: available chips by color (`colors: dict[str, int]`). -/
structure ChipSet where
  colors : List (Color × ℕ)

/-- `ChipSet.total_chips`. -/
def ChipSet.total_chips (cs : ChipSet) : ℕ :=
  (cs.colors.map (fun e => e.2)).sum

/-- `ChipSet.get_color_count`: `self.colors.get(color, 0)`. -/
def ChipSet.get_color_count (cs : ChipSet) (c : Color) : ℕ :=
  lookupD cs.colors c 0

/-- `ChipDistribution` dataclass.  `num_players` defaults to `1` in the
source (`num_players: int = 1`). -/
structure ChipDistribution where
  chip_values : List (Color × ℚ)
  chips_per_player : List (Color × ℕ)
  total_value_per_player : ℚ
  unused_chips : List (Color × ℤ)
  num_players : ℕ := 1
  deriving DecidableEq

/-- `get_player_value`: `sum(value * count for value, count in
zip(self.chip_values.values(), self.chips_per_player.values()))` — note the
two dicts are zipped **by position**, not joined by key. -/
def ChipDistribution.get_player_value (d : ChipDistribution) : ℚ :=
  (((d.chip_values.map (fun e => e.2)).zip (d.chips_per_player.map (fun e => e.2))).map
    (fun e => e.1 * (e.2 : ℚ))).sum

/-- `get_total_unused_chips`: `sum(self.unused_chips.values())`. -/
def ChipDistribution.get_total_unused_chips (d : ChipDistribution) : ℤ :=
  (d.unused_chips.map (fun e => e.2)).sum

/-- Total used tokens accumulated by `get_efficiency`:
`Σ chips_per_player[color] * num_players` over the colors of
`chips_per_player`. -/
def ChipDistribution.usedTokens (d : ChipDistribution) : ℤ :=
  (d.chips_per_player.map (fun e => (e.2 : ℤ) * d.num_players)).sum

/-- Total available tokens accumulated by `get_efficiency`:
used tokens plus `unused_chips.get(color, 0)` for each color of
`chips_per_player`. -/
def ChipDistribution.availableTokens (d : ChipDistribution) : ℤ :=
  (d.chips_per_player.map
    (fun e => (e.2 : ℤ) * d.num_players + lookupD d.unused_chips e.1 0)).sum

/-- `get_efficiency`: iterates the colors of `chips_per_player` (dict keys are
unique, so iterating entries equals `for color in self.chips_per_player` with
`self.chips_per_player[color]`), returns 0 when no tokens are available, else
`used / available * 100`. -/
def ChipDistribution.get_efficiency (d : ChipDistribution) : ℚ :=
  if d.availableTokens = 0 then 0
  else ((d.usedTokens : ℚ) / (d.availableTokens : ℚ)) * 100

/-! ## calculator.py -/

/-- `DEFAULT_CHIP_VALUES = [0.25, 0.5, 1.0, 2.0, 5.0, 10.0, 25.0, 50.0, 100.0]`. -/
def DEFAULT_CHIP_VALUES : List ℚ :=
  [1/4, 1/2, 1, 2, 5, 10, 25, 50, 100]

/-- Abstraction of the `np.random` draws of `_evaluate_distribution_sampled`:
`oracle bi vi` is the list of (color, adjustment) pairs drawn for variant `vi`
of base combination `bi`. -/
abbrev RandOracle := ℕ → ℕ → List (Color × ℤ)

/-- Total chips of a combination row, as the float score term
(`total_chips_per_player`). -/
def chipsQ (q : List ℕ) : ℚ := (q.sum : ℕ)

/-- The batch score of a row with deviation `err`:
`accuracy_scores * 100 + chip_count_scores` where
`accuracy_scores = 1000 / (1 + err * 100)`. -/
def batchCombined (err : ℚ) (q : List ℕ) : ℚ :=
  (1000 / (1 + err * 100)) * 100 + chipsQ q

/-- `_evaluate_combinations_batch`: score a batch of rows, keep only rows with
`|total − buy_in| ≤ buy_in * 0.2`, and return the first row maximizing
`accuracy * 100 + chips` together with its `(accuracy, chips)` score pair, or
`None` when no row is valid. -/
def evaluate_combinations_batch (batch : List (List ℕ)) (colors : List Color)
    (chip_values : List (Color × ℚ)) (buy_in_per_person : ℚ) :
    Option (List (Color × ℕ) × (ℚ × ℚ)) :=
  let values := colors.map (fun c => lookupD chip_values c 0)
  let scored := batch.map (fun q => (q, |dot q values - buy_in_per_person|))
  let valid := scored.filter (fun e => e.2 ≤ buy_in_per_person * (1/5))
  match argmaxBy (fun e => batchCombined e.2 e.1) valid with
  | none => none
  | some e => some (colors.zip e.1, (1000 / (1 + e.2 * 100), chipsQ e.1))

/-- The per-color `max_chips_per_color` dict: `available // num_players` per
color, or `None` as soon as some color's maximum is 0. -/
def maxChipsPerColor (cs : ChipSet) (colors : List Color) (num_players : ℕ) :
    Option (List (Color × ℕ)) :=
  if colors.all (fun c => cs.get_color_count c / num_players != 0) then
    some (colors.map (fun c => (c, cs.get_color_count c / num_players)))
  else none

/-- The size of the quantity-combination space for one value assignment:
`Π max_chips_per_color[c]` over the colors (the product of the range
lengths).  It depends only on the inventory, the color list and the
participant count — not on the assigned values. -/
def totalCombinations (cs : ChipSet) (colors : List Color) (num_players : ℕ) : ℕ :=
  (colors.map (fun c => cs.get_color_count c / num_players)).prod

/-- The sampling threshold `max_combinations_threshold = 200_000`. -/
def maxCombinationsThreshold : ℕ := 200000

/-- The "balanced" seed combination: equal chips per color,
`min(max(1, buy_in // sum(values) * len(colors)), max_chips_per_color[c])`. -/
def balancedCombo (colors : List Color) (chip_values : List (Color × ℚ))
    (maxc : List (Color × ℕ)) (buy_in : ℚ) : List (Color × ℕ) :=
  let sumv := (chip_values.map (fun e => e.2)).sum
  let base : ℤ := max 1 (⌊buy_in / sumv⌋ * colors.length)
  colors.map (fun c => (c, min base.toNat (lookupD maxc c 0)))

/-- The greedy seed combinations (`high_value_focus` with divisor 2,
`low_value_focus` with divisor 1.5): walk the colors in the given order,
taking `min(max_chips, max(1, int(remaining / (value * divisor))))` chips and
subtracting their value from the remaining target. -/
def greedyCombo (sortedColors : List Color) (chip_values : List (Color × ℚ))
    (maxc : List (Color × ℕ)) (buy_in : ℚ) (divisor : ℚ) : List (Color × ℕ) :=
  (sortedColors.foldl
    (fun (st : ℚ × List (Color × ℕ)) c =>
      let maxv := lookupD maxc c 0
      let v := lookupD chip_values c 0
      let t := min maxv (max 1 (ratTrunc (st.1 / (v * divisor)))).toNat
      (st.1 - (t : ℚ) * v, st.2 ++ [(c, t)]))
    (buy_in, [])).2

/-- One random adjustment:
`variant[color] = max(1, min(max_val, current + adjustment))`. -/
def clampAdjust (maxv current : ℕ) (adj : ℤ) : ℕ :=
  (max 1 (min (maxv : ℤ) ((current : ℤ) + adj))).toNat

/-- Apply one drawn (color, adjustment) pair to a variant; the RNG only draws
colors present in the dict, so this is an in-place update of that entry. -/
def updateCombo (maxc : List (Color × ℕ)) (combo : List (Color × ℕ))
    (c : Color) (adj : ℤ) : List (Color × ℕ) :=
  combo.map (fun e => if e.1 == c then (e.1, clampAdjust (lookupD maxc e.1 0) e.2 adj) else e)

/-- Apply all drawn adjustments of one variant in order. -/
def applyAdjustments (maxc : List (Color × ℕ)) (combo : List (Color × ℕ))
    (adjs : List (Color × ℤ)) : List (Color × ℕ) :=
  adjs.foldl (fun v e => updateCombo maxc v e.1 e.2) combo

/-- `sorted(colors, key=lambda c: chip_values[c], reverse=True)` (stable). -/
def sortColorsByValueDesc (colors : List Color) (chip_values : List (Color × ℚ)) :
    List Color :=
  stableSortBy (fun a b => decide (lookupD chip_values b 0 < lookupD chip_values a 0)) colors

/-- `sorted(colors, key=lambda c: chip_values[c])` (stable). -/
def sortColorsByValueAsc (colors : List Color) (chip_values : List (Color × ℚ)) :
    List Color :=
  stableSortBy (fun a b => decide (lookupD chip_values a 0 < lookupD chip_values b 0)) colors

/-- `target_combinations`: the three seed combinations, in strategy order
`["balanced", "high_value_focus", "low_value_focus"]`. -/
def targetCombinations (colors : List Color) (chip_values : List (Color × ℚ))
    (maxc : List (Color × ℕ)) (buy_in : ℚ) : List (List (Color × ℕ)) :=
  [balancedCombo colors chip_values maxc buy_in,
   greedyCombo (sortColorsByValueDesc colors chip_values) chip_values maxc buy_in 2,
   greedyCombo (sortColorsByValueAsc colors chip_values) chip_values maxc buy_in (3/2)]

/-- `all_candidates = target_combinations + search_combinations`: the seeds
followed by 100 random variants of each seed, in seed order. -/
def allCandidates (oracle : RandOracle) (colors : List Color)
    (chip_values : List (Color × ℚ)) (maxc : List (Color × ℕ)) (buy_in : ℚ) :
    List (List (Color × ℕ)) :=
  let targets := targetCombinations colors chip_values maxc buy_in
  targets ++
    (targets.enum.map (fun be =>
      (List.range 100).map (fun vi => applyAdjustments maxc be.2 (oracle be.1 vi)))).flatten

/-- `total_value_per_player` of a candidate combination:
`sum(chips_per_player[color] * chip_values[color] for color in colors)`. -/
def sampledTotal (colors : List Color) (chip_values : List (Color × ℚ))
    (combo : List (Color × ℕ)) : ℚ :=
  (colors.map (fun c => ((lookupD combo c 0 : ℕ) : ℚ) * lookupD chip_values c 0)).sum

/-- The sampled-path score pair:
`(total_chips_per_player * 10, -(max(0, error - 0.25) * 100))`. -/
def sampledScorePair (buy_in total : ℚ) (chips : ℕ) : ℚ × ℚ :=
  ((chips : ℚ) * 10, -(max 0 (|total - buy_in| - 1/4) * 100))

/-- The selection loop of `_evaluate_distribution_sampled`: skip candidates
with `error > buy_in * 0.2`, otherwise keep the first candidate whose score
pair is a strict (tuple-lexicographic) improvement. -/
def sampledBest (colors : List Color) (chip_values : List (Color × ℚ)) (buy_in : ℚ)
    (cands : List (List (Color × ℕ))) : Option (List (Color × ℕ) × (ℚ × ℚ)) :=
  cands.foldl
    (fun best combo =>
      let total := sampledTotal colors chip_values combo
      if |total - buy_in| > buy_in * (1/5) then best
      else
        let score := sampledScorePair buy_in total ((combo.map (fun e => e.2)).sum)
        match best with
        | none => some (combo, score)
        | some b => if scoreGtQ score b.2 then some (combo, score) else best)
    none

/-- `_evaluate_distribution_sampled`: build the seed and variant candidates,
select the best valid one, and package it as a `ChipDistribution`
(`num_players` is not passed to the constructor, so it stays at its
default 1). -/
def evaluate_distribution_sampled (oracle : RandOracle) (colors : List Color)
    (chip_values : List (Color × ℚ)) (maxc : List (Color × ℕ))
    (buy_in_per_person : ℚ) (num_players : ℕ) (cs : ChipSet) :
    Option ChipDistribution :=
  match sampledBest colors chip_values buy_in_per_person
      (allCandidates oracle colors chip_values maxc buy_in_per_person) with
  | none => none
  | some b =>
    some
      { chip_values := chip_values
        chips_per_player := b.1
        total_value_per_player := sampledTotal colors chip_values b.1
        unused_chips := colors.map (fun c =>
          (c, (cs.get_color_count c : ℤ) - ((lookupD b.1 c 0 : ℕ) : ℤ) * num_players))
        num_players := 1 }

/-- Fold of the per-batch results: keep the first batch best, replacing it
only on a strict tuple-comparison improvement of the `(accuracy, chips)`
score pair. -/
def reduceResults (rs : List (Option (List (Color × ℕ) × (ℚ × ℚ)))) :
    Option (List (Color × ℕ) × (ℚ × ℚ)) :=
  rs.foldl
    (fun best r =>
      match r, best with
      | some cscore, some bscore =>
        if scoreGtQ cscore.2 bscore.2 then some cscore else best
      | some cscore, none => some cscore
      | none, _ => best)
    none

/-- `_evaluate_distribution`: per-color maxima (`None` if any color cannot
give every player one chip), then either the sampled path (above the
200 000-combination threshold) or the exhaustive batched path.  In the
exhaustive path the combination space is `itertools.product` of
`range(1, max+1)` per color, split into batches of
`max(1000, total // (num_cores * 4))`.  The returned record again leaves
`num_players` at its default 1. -/
def evaluate_distribution (oracle : RandOracle) (numCores : ℕ) (cs : ChipSet)
    (colors : List Color) (values : List ℚ) (buy_in_per_person : ℚ)
    (num_players : ℕ) : Option ChipDistribution :=
  let chip_values := colors.zip values
  match maxChipsPerColor cs colors num_players with
  | none => none
  | some maxc =>
    let total := (maxc.map (fun e => e.2)).prod
    if total > maxCombinationsThreshold then
      evaluate_distribution_sampled oracle colors chip_values maxc
        buy_in_per_person num_players cs
    else
      let all := productLists (maxc.map (fun e => List.range' 1 e.2))
      let batches := chunked (max 1000 (total / (numCores * 4))) all
      match reduceResults (batches.map (fun b =>
          evaluate_combinations_batch b colors chip_values buy_in_per_person)) with
      | none => none
      | some best =>
        some
          { chip_values := chip_values
            chips_per_player := best.1
            total_value_per_player :=
              (colors.map (fun c =>
                ((lookupD best.1 c 0 : ℕ) : ℚ) * lookupD chip_values c 0)).sum
            unused_chips := colors.map (fun c =>
              (c, (cs.get_color_count c : ℤ) - ((lookupD best.1 c 0 : ℕ) : ℤ) * num_players))
            num_players := 1 }

/-- `_create_fallback_distribution`: assign the first `len(colors)` pool
values to the colors in pool order (repeating the last pool value if the pool
is shorter), one chip of every color per player,
`unused = max(0, count - 1)`; the record's `num_players` again stays at the
default 1.  (The `buy_in_per_person` argument is unused in the source.) -/
def create_fallback_distribution (possible_values : List ℚ) (cs : ChipSet)
    (colors : List Color) : ChipDistribution :=
  let chip_values := colors.enum.map (fun e =>
    (e.2, if e.1 < possible_values.length
          then possible_values.getD e.1 0
          else possible_values.getD (possible_values.length - 1) 0))
  { chip_values := chip_values
    chips_per_player := colors.map (fun c => (c, 1))
    total_value_per_player := (chip_values.map (fun e => e.2)).sum
    unused_chips := colors.map (fun c => (c, max 0 ((cs.get_color_count c : ℤ) - 1)))
    num_players := 1 }

/-- Errors `calculate_optimal_split` can raise: the `ValueError` for an
insufficient value pool, and the `ZeroDivisionError` at
`buy_in_per_person / max_possible_chips` when `max_possible_chips == 0`. -/
inductive CalcError where
  | notEnoughValues
  | zeroDivision
  deriving DecidableEq

instance {ε α : Type} [DecidableEq ε] [DecidableEq α] : DecidableEq (Except ε α) :=
  fun a b =>
    match a, b with
    | .ok x, .ok y =>
      if h : x = y then isTrue (by rw [h]) else isFalse (fun hc => by cases hc; exact h rfl)
    | .error x, .error y =>
      if h : x = y then isTrue (by rw [h]) else isFalse (fun hc => by cases hc; exact h rfl)
    | .ok _, .error _ => isFalse (fun hc => by cases hc)
    | .error _, .ok _ => isFalse (fun hc => by cases hc)

/-- The pruning test inside the permutation loop:
`avg > buy_in or avg < 0.01` with `avg = sum(values) / len(values)`. -/
def pruneCheck (values : List ℚ) (buy_in : ℚ) : Bool :=
  let avg := values.sum / (values.length : ℚ)
  decide (buy_in < avg) || decide (avg < 1/100)

/-- `colors_by_availability`: colors stably sorted by
`get_color_count(c) // num_players` ascending. -/
def colorsByAvailability (cs : ChipSet) (num_players : ℕ) : List Color :=
  stableSortBy
    (fun a b => decide (cs.get_color_count a / num_players < cs.get_color_count b / num_players))
    (cs.colors.map (fun e => e.1))

/-- The scalar used to compare a candidate against the stored best score pair:
`best_score[0] * 100 + best_score[1]`. -/
def combinedOf (s : ℚ × ℚ) : ℚ := s.1 * 100 + s.2

/-- The permutation loop of `calculate_optimal_split`: prune by average
value, evaluate, keep the best by `accuracy * 100 + chips`, break early on an
excellent new best (`error ≤ 1%` and `chips ≥ 95%` of the maximum) or on a
perfect candidate (`error == 0` and `chips == max_possible_chips`). -/
def searchLoop (oracle : RandOracle) (numCores : ℕ) (cs : ChipSet)
    (colorsAvail : List Color) (buy_in : ℚ) (num_players : ℕ) (maxPossible : ℕ) :
    List (List ℚ) → Option (ChipDistribution × (ℚ × ℚ)) →
      Option (ChipDistribution × (ℚ × ℚ))
  | [], best => best
  | vc :: rest, best =>
    if pruneCheck vc buy_in then
      searchLoop oracle numCores cs colorsAvail buy_in num_players maxPossible rest best
    else
      match evaluate_distribution oracle numCores cs colorsAvail vc buy_in num_players with
      | none =>
        searchLoop oracle numCores cs colorsAvail buy_in num_players maxPossible rest best
      | some dist =>
        let chips : ℚ := ((dist.chips_per_player.map (fun e => e.2)).sum : ℕ)
        let error := |dist.total_value_per_player - buy_in|
        let accuracy := 1000 / (1 + error * 100)
        let combined := accuracy * 100 + chips
        let isNew : Bool :=
          match best with
          | none => true
          | some b => decide (combinedOf b.2 < combined)
        let best2 := if isNew then some (dist, (accuracy, chips)) else best
        if isNew && decide (error ≤ buy_in * (1/100)) &&
            decide ((maxPossible : ℚ) * (19/20) ≤ chips) then best2
        else if decide (error = 0) && decide (chips = (maxPossible : ℚ)) then best2
        else searchLoop oracle numCores cs colorsAvail buy_in num_players maxPossible rest best2

/-- `ChipSplitCalculator.calculate_optimal_split`.  Checks the pool size
(`ValueError` when `len(possible_values) < len(colors)`), sorts colors by
availability, computes `max_possible_chips` (the division
`buy_in / max_possible_chips` raises `ZeroDivisionError` when it is 0), sorts
the pool by proximity to `buy_in / max_possible_chips`, walks the value
permutations, and falls back to `_create_fallback_distribution` when no
permutation produced a distribution. -/
def calculate_optimal_split (oracle : RandOracle) (numCores : ℕ)
    (possible_values : List ℚ) (cs : ChipSet) (buy_in_per_person : ℚ)
    (num_players : ℕ) : Except CalcError ChipDistribution :=
  let colors := cs.colors.map (fun e => e.1)
  if possible_values.length < colors.length then .error .notEnoughValues
  else
    let colorsAvail := colorsByAvailability cs num_players
    let maxPossible := (colorsAvail.map (fun c => cs.get_color_count c / num_players)).sum
    if maxPossible = 0 then .error .zeroDivision
    else
      let target := buy_in_per_person / (maxPossible : ℚ)
      let sortedValues :=
        stableSortBy (fun a b => decide (|a - target| < |b - target|)) possible_values
      match searchLoop oracle numCores cs colorsAvail buy_in_per_person num_players
          maxPossible (permutationsR colors.length sortedValues) none with
      | none => .ok (create_fallback_distribution possible_values cs colors)
      | some b => .ok b.1

/-- The value combinations the permutation loop submits to the quantity
search: empty when the pool-size check fails or when the
`ZeroDivisionError` fires before the loop, otherwise the (prune-filtered)
permutation list.  (Early termination can stop the loop before the end of
this list, so it over-approximates the evaluated set; for the error cases it
is exactly empty.) -/
def attemptedValueCombos (possible_values : List ℚ) (cs : ChipSet)
    (buy_in_per_person : ℚ) (num_players : ℕ) : List (List ℚ) :=
  let colors := cs.colors.map (fun e => e.1)
  if possible_values.length < colors.length then []
  else
    let colorsAvail := colorsByAvailability cs num_players
    let maxPossible := (colorsAvail.map (fun c => cs.get_color_count c / num_players)).sum
    if maxPossible = 0 then []
    else
      let target := buy_in_per_person / (maxPossible : ℚ)
      (permutationsR colors.length
        (stableSortBy (fun a b => decide (|a - target| < |b - target|)) possible_values)).filter
        (fun vc => !pruneCheck vc buy_in_per_person)

/-! ## Fixed-value distribution mode (modelled from the spec)

`cli.py` (`distribute_command`) calls
`calculator.calculate_distribution_with_values(chip_set, fixed_values,
num_players, buy_in_per_person)`, but that method is absent from
`calculator.py` in this repository; only its caller exists.  The definitions
below model it from §4.2 of the spec. -/

/-- The quantity-combination space of the fixed-value quantity search:
required-use policy disabled, so the per-color range is `0 .. max_per_participant`
(`max_per_participant = inventory // participants`). -/
def fixedCombos (cs : ChipSet) (vals : List (Color × ℚ)) (num_players : ℕ) :
    List (List ℕ) :=
  productLists (vals.map (fun e => List.range (cs.get_color_count e.1 / num_players + 1)))

/-- The score of a fixed-mode combination: the repository's quantity-search
scoring, `accuracy * 100 + chips` with `accuracy = 1000 / (1 + deviation * 100)`. -/
def fixedScore (vals : List (Color × ℚ)) (target : ℚ) (q : List ℕ) : ℚ :=
  batchCombined (|dot q (vals.map (fun e => e.2)) - target|) q

/-- Modelled from the spec: the quantity search invoked in fixed-value mode
(spec §4.2, "invoke Quantity Search once with that single ValueAssignment,
using the required-use policy disabled").  It enumerates the combination
space, keeps combinations within the repository's 20% tolerance of the
per-participant target, and returns the best-scoring one as a
DistributionRecord (with the derived total, unused counts, and the
participant count, per spec §3). -/
def quantitySearchFixed (cs : ChipSet) (vals : List (Color × ℚ)) (num_players : ℕ)
    (target : ℚ) : Option ChipDistribution :=
  let colors := vals.map (fun e => e.1)
  let values := vals.map (fun e => e.2)
  let valid := (fixedCombos cs vals num_players).filter
    (fun q => |dot q values - target| ≤ target * (1/5))
  match argmaxBy (fixedScore vals target) valid with
  | none => none
  | some q =>
    some
      { chip_values := vals
        chips_per_player := colors.zip q
        total_value_per_player := dot q values
        unused_chips := (colors.zip q).map (fun e =>
          (e.1, (cs.get_color_count e.1 : ℤ) - (e.2 : ℤ) * num_players))
        num_players := num_players }

/-- Modelled from the spec: `calculate_distribution_with_values` (absent from
`calculator.py`; called by `cli.py`'s distribute command).  Per spec §4.2
fixed-value mode, the permutation search over value assignments is skipped
and the quantity search is invoked exactly once, with the externally supplied
value assignment. -/
def calculate_distribution_with_values (cs : ChipSet) (fixed_values : List (Color × ℚ))
    (num_players : ℕ) (buy_in_per_person : ℚ) : Option ChipDistribution :=
  quantitySearchFixed cs fixed_values num_players buy_in_per_person

/-! ## Plain exhaustive reference search (modelled from the spec, for C5)

The spec calls the ordering/pruning heuristics "purely search-order
optimizations — they must never change which result is considered best".
The reference below is the plain search those words describe: enumerate all
value permutations of the pool in pool order over the colors in inventory
order, run the same quantity search on every one of them (no pruning, no
early termination), keep the best by the same `accuracy * 100 + chips`
score, and fall back identically when nothing is valid. -/

def plainLoop (oracle : RandOracle) (numCores : ℕ) (cs : ChipSet)
    (colors : List Color) (buy_in : ℚ) (num_players : ℕ) :
    List (List ℚ) → Option (ChipDistribution × ℚ) → Option (ChipDistribution × ℚ)
  | [], best => best
  | vc :: rest, best =>
    match evaluate_distribution oracle numCores cs colors vc buy_in num_players with
    | none => plainLoop oracle numCores cs colors buy_in num_players rest best
    | some dist =>
      let chips : ℚ := ((dist.chips_per_player.map (fun e => e.2)).sum : ℕ)
      let combined := (1000 / (1 + |dist.total_value_per_player - buy_in| * 100)) * 100 + chips
      let best2 :=
        match best with
        | none => some (dist, combined)
        | some b => if b.2 < combined then some (dist, combined) else best
      plainLoop oracle numCores cs colors buy_in num_players rest best2

/-- Modelled from the spec: the plain exhaustive enumeration of all value
permutations, with no search-order heuristics, no pruning and no early
termination. -/
def plainExhaustiveSearch (oracle : RandOracle) (numCores : ℕ)
    (possible_values : List ℚ) (cs : ChipSet) (buy_in_per_person : ℚ)
    (num_players : ℕ) : Except CalcError ChipDistribution :=
  let colors := cs.colors.map (fun e => e.1)
  if possible_values.length < colors.length then .error .notEnoughValues
  else
    match plainLoop oracle numCores cs colors buy_in_per_person num_players
        (permutationsR colors.length possible_values) none with
    | none => .ok (create_fallback_distribution possible_values cs colors)
    | some b => .ok b.1

/-! ## General lemmas about the helper functions -/

theorem lookupD_nil {α : Type} (c : Color) (d : α) : lookupD [] c d = d := rfl

theorem lookupD_cons_self {α : Type} (c : Color) (v : α) (l : List (Color × α)) (d : α) :
    lookupD ((c, v) :: l) c d = v := by
  simp [lookupD, List.find?]

theorem lookupD_cons_ne {α : Type} {c c' : Color} (v : α) (l : List (Color × α)) (d : α)
    (h : c' ≠ c) : lookupD ((c', v) :: l) c d = lookupD l c d := by
  have hb : (c' == c) = false := beq_eq_false_iff_ne.mpr h
  simp [lookupD, List.find?, hb]

/-- Looking up a key built by `colors.map (fun x => (x, f x))` yields `f c`
whenever `c` occurs in `colors`. -/
theorem lookupD_map_self {α : Type} (f : Color → α) (d : α) :
    ∀ (colors : List Color) (c : Color), c ∈ colors →
      lookupD (colors.map (fun x => (x, f x))) c d = f c := by
  intro colors
  induction colors with
  | nil => intro c hc; cases hc
  | cons x xs ih =>
    intro c hc
    by_cases hxc : x = c
    · subst hxc; simpa using lookupD_cons_self x (f x) (xs.map (fun x => (x, f x))) d
    · have : c ∈ xs := by
        cases hc with
        | head => exact absurd rfl hxc
        | tail _ h => exact h
      rw [List.map_cons, lookupD_cons_ne _ _ _ hxc, ih c this]

/-- A lookup either returns the default or the value of some entry with the
looked-up key. -/
theorem lookupD_eq_or_mem {α : Type} (l : List (Color × α)) (c : Color) (d : α) :
    lookupD l c d = d ∨ ∃ e ∈ l, e.1 = c ∧ lookupD l c d = e.2 := by
  induction l with
  | nil => exact Or.inl rfl
  | cons e es ih =>
    by_cases hc : e.1 = c
    · right
      refine ⟨e, List.mem_cons_self _ _, hc, ?_⟩
      obtain ⟨c', v⟩ := e
      cases hc
      exact lookupD_cons_self c' v es d
    · obtain ⟨c', v⟩ := e
      rw [lookupD_cons_ne v es d hc]
      rcases ih with h | ⟨e', he', hk, hv⟩
      · exact Or.inl h
      · exact Or.inr ⟨e', List.mem_cons_of_mem _ he', hk, hv⟩

/-- If `c` is a key of `l`, the lookup returns the value of some entry of
`l` whose key is `c`. -/
theorem lookupD_mem_of_key {α : Type} {l : List (Color × α)} {c : Color} (d : α)
    (h : c ∈ l.map (fun e => e.1)) :
    ∃ e ∈ l, e.1 = c ∧ lookupD l c d = e.2 := by
  induction l with
  | nil => simp at h
  | cons e es ih =>
    by_cases hc : e.1 = c
    · refine ⟨e, List.mem_cons_self _ _, hc, ?_⟩
      obtain ⟨c', v⟩ := e
      cases hc
      exact lookupD_cons_self c' v es d
    · obtain ⟨c', v⟩ := e
      have hces : c ∈ es.map (fun e => e.1) := by
        simp only [List.map_cons, List.mem_cons] at h
        rcases h with h | h
        · exact absurd h.symm hc
        · exact h
      obtain ⟨e', he', hk, hv⟩ := ih hces
      exact ⟨e', List.mem_cons_of_mem _ he',
        hk, by rw [lookupD_cons_ne v es d hc, hv]⟩

/-- `argmaxBy` returns an element of the list. -/
theorem argmaxBy_mem {α : Type} {f : α → ℚ} :
    ∀ {l : List α} {x : α}, argmaxBy f l = some x → x ∈ l := by
  have aux : ∀ (xs : List α) (b : α), xs.foldl (fun b y => if f b < f y then y else b) b = b ∨
      xs.foldl (fun b y => if f b < f y then y else b) b ∈ xs := by
    intro xs
    induction xs with
    | nil => intro b; exact Or.inl rfl
    | cons y ys ih =>
      intro b
      simp only [List.foldl_cons]
      by_cases h : f b < f y
      · simp only [if_pos h]
        rcases ih y with h' | h'
        · exact Or.inr (by rw [h']; exact List.mem_cons_self _ _)
        · exact Or.inr (List.mem_cons_of_mem _ h')
      · simp only [if_neg h]
        rcases ih b with h' | h'
        · exact Or.inl h'
        · exact Or.inr (List.mem_cons_of_mem _ h')
  intro l x h
  cases l with
  | nil => cases h
  | cons a as =>
    simp only [argmaxBy, Option.some.injEq] at h
    rcases aux as a with h' | h'
    · exact (h ▸ h') ▸ List.mem_cons_self _ _
    · exact h ▸ List.mem_cons_of_mem _ h'

/-- `argmaxBy` returns a maximum of `f` over the list. -/
theorem argmaxBy_le {α : Type} {f : α → ℚ} :
    ∀ {l : List α} {x : α}, argmaxBy f l = some x → ∀ y ∈ l, f y ≤ f x := by
  have aux : ∀ (xs : List α) (b : α),
      f b ≤ f (xs.foldl (fun b y => if f b < f y then y else b) b) ∧
      ∀ y ∈ xs, f y ≤ f (xs.foldl (fun b y => if f b < f y then y else b) b) := by
    intro xs
    induction xs with
    | nil => intro b; exact ⟨le_refl _, by simp⟩
    | cons y ys ih =>
      intro b
      simp only [List.foldl_cons]
      by_cases h : f b < f y
      · simp only [if_pos h]
        refine ⟨le_trans (le_of_lt h) (ih y).1, ?_⟩
        intro z hz
        rcases List.mem_cons.mp hz with hz | hz
        · exact hz ▸ (ih y).1
        · exact (ih y).2 z hz
      · simp only [if_neg h]
        refine ⟨(ih b).1, ?_⟩
        intro z hz
        rcases List.mem_cons.mp hz with hz | hz
        · exact hz ▸ le_trans (not_lt.mp h) (ih b).1
        · exact (ih b).2 z hz
  intro l x h y hy
  cases l with
  | nil => cases h
  | cons a as =>
    simp only [argmaxBy, Option.some.injEq] at h
    subst h
    rcases List.mem_cons.mp hy with hy | hy
    · exact hy ▸ (aux as a).1
    · exact (aux as a).2 y hy

/-- Members of a chunk are members of the original list. -/
theorem chunkedAux_subset {α : Type} (k : ℕ) :
    ∀ (fuel : ℕ) (l : List α) (b : List α), b ∈ chunkedAux k fuel l → ∀ x ∈ b, x ∈ l := by
  intro fuel
  induction fuel with
  | zero => intro l b hb; cases hb
  | succ n ih =>
    intro l b hb x hx
    cases l with
    | nil => cases hb
    | cons a as =>
      simp only [chunkedAux] at hb
      by_cases hk : k = 0
      · rw [if_pos hk] at hb; cases hb
      · rw [if_neg hk] at hb
        rcases List.mem_cons.mp hb with hb | hb
        · exact List.take_subset _ _ (hb ▸ hx)
        · exact List.drop_subset _ _ (ih _ b hb x hx)

theorem chunked_subset {α : Type} {k : ℕ} {l : List α} {b : List α}
    (hb : b ∈ chunked k l) : ∀ x ∈ b, x ∈ l :=
  chunkedAux_subset k l.length l b hb

/-- Membership in a Cartesian product: the row picks a member of every
factor. -/
theorem mem_productLists :
    ∀ {rs : List (List ℕ)} {q : List ℕ}, q ∈ productLists rs →
      List.Forall₂ (fun x r => x ∈ r) q rs := by
  intro rs
  induction rs with
  | nil =>
    intro q hq
    simp only [productLists, List.mem_singleton] at hq
    subst hq
    exact List.Forall₂.nil
  | cons r rs ih =>
    intro q hq
    simp only [productLists, List.mem_flatten, List.mem_map] at hq
    obtain ⟨l, ⟨x, hx, rfl⟩, hql⟩ := hq
    obtain ⟨t, ht, rfl⟩ := List.mem_map.mp hql
    exact List.Forall₂.cons hx (ih ht)

/-- A member of `zip` comes from a common index of the two lists. -/
theorem mem_zip_get? {α β : Type} :
    ∀ {l₁ : List α} {l₂ : List β} {a : α} {b : β}, (a, b) ∈ l₁.zip l₂ →
      ∃ i, l₁.get? i = some a ∧ l₂.get? i = some b := by
  intro l₁
  induction l₁ with
  | nil => intro l₂ a b h; cases h
  | cons x xs ih =>
    intro l₂ a b h
    cases l₂ with
    | nil => cases h
    | cons y ys =>
      rcases List.mem_cons.mp h with h | h
      · obtain ⟨rfl, rfl⟩ := Prod.mk.injEq .. ▸ h
        exact ⟨0, rfl, rfl⟩
      · obtain ⟨i, h₁, h₂⟩ := ih h
        exact ⟨i + 1, h₁, h₂⟩

/-- Extract the relation at an index from `Forall₂`. -/
theorem forall₂_get? {α β : Type} {R : α → β → Prop} :
    ∀ {l₁ : List α} {l₂ : List β}, List.Forall₂ R l₁ l₂ →
      ∀ {i : ℕ} {a : α} {b : β}, l₁.get? i = some a → l₂.get? i = some b → R a b := by
  intro l₁ l₂ h
  induction h with
  | nil => intro i a b h₁; cases h₁
  | @cons x y xs ys hxy _ ih =>
    intro i a b h₁ h₂
    cases i with
    | zero =>
      cases h₁; cases h₂
      exact hxy
    | succ n => exact ih h₁ h₂

theorem mem_range'_one {m x : ℕ} (h : x ∈ List.range' 1 m) : 1 ≤ x ∧ x ≤ m := by
  rw [List.mem_range'] at h
  obtain ⟨i, hi, rfl⟩ := h
  omega

/-- The fold over batch results returns one of the batch results. -/
theorem reduceResults_mem {rs : List (Option (List (Color × ℕ) × (ℚ × ℚ)))}
    {x : List (Color × ℕ) × (ℚ × ℚ)} (h : reduceResults rs = some x) : some x ∈ rs := by
  have aux : ∀ (rs : List (Option (List (Color × ℕ) × (ℚ × ℚ))))
      (acc : Option (List (Color × ℕ) × (ℚ × ℚ))),
      rs.foldl (fun best r =>
        match r, best with
        | some cscore, some bscore =>
          if scoreGtQ cscore.2 bscore.2 then some cscore else best
        | some cscore, none => some cscore
        | none, _ => best) acc = some x → acc = some x ∨ some x ∈ rs := by
    intro rs
    induction rs with
    | nil => intro acc h; exact Or.inl h
    | cons r rs ih =>
      intro acc h
      simp only [List.foldl_cons] at h
      rcases ih _ h with h' | h'
      · cases r with
        | none => exact Or.inl h'
        | some cscore =>
          cases acc with
          | none => exact Or.inr (List.mem_cons.mpr (Or.inl h'.symm))
          | some bscore =>
            simp only at h'
            by_cases hgt : scoreGtQ cscore.2 bscore.2
            · rw [if_pos hgt] at h'
              exact Or.inr (List.mem_cons.mpr (Or.inl h'.symm))
            · rw [if_neg hgt] at h'
              exact Or.inl h'
      · exact Or.inr (List.mem_cons_of_mem _ h')
  rcases aux rs none h with h' | h'
  · cases h'
  · exact h'

/-- If every batch result is `none`, the reduction is `none`. -/
theorem reduceResults_all_none {rs : List (Option (List (Color × ℕ) × (ℚ × ℚ)))}
    (h : ∀ r ∈ rs, r = none) : reduceResults rs = none := by
  induction rs with
  | nil => rfl
  | cons r rs ih =>
    have hr := h r (List.mem_cons_self _ _)
    subst hr
    exact ih (fun r hr => h r (List.mem_cons_of_mem _ hr))

/-- Characterization of a successful batch evaluation: the returned
combination is a zip of the colors with one of the batch rows, that row is
within the 20% tolerance, and the returned score pair is its
`(accuracy, chips)`. -/
theorem evaluate_combinations_batch_some {batch : List (List ℕ)} {colors : List Color}
    {chip_values : List (Color × ℚ)} {B : ℚ} {res : List (Color × ℕ) × (ℚ × ℚ)}
    (h : evaluate_combinations_batch batch colors chip_values B = some res) :
    ∃ q ∈ batch,
      res.1 = colors.zip q ∧
      |dot q (colors.map (fun c => lookupD chip_values c 0)) - B| ≤ B * (1/5) ∧
      res.2 = (1000 / (1 + |dot q (colors.map (fun c => lookupD chip_values c 0)) - B| * 100),
        chipsQ q) := by
  simp only [evaluate_combinations_batch] at h
  rcases hmatch : argmaxBy
      (fun e => batchCombined e.2 e.1)
      ((batch.map (fun q =>
          (q, |dot q (colors.map (fun c => lookupD chip_values c 0)) - B|))).filter
        (fun e => e.2 ≤ B * (1/5))) with _ | e
  · rw [hmatch] at h; cases h
  · rw [hmatch] at h
    have hemem := argmaxBy_mem hmatch
    have hfilter := List.mem_filter.mp hemem
    obtain ⟨q, hq, hqe⟩ := List.mem_map.mp hfilter.1
    have hpred := hfilter.2
    cases h
    refine ⟨q, hq, ?_, ?_, ?_⟩
    · rw [← hqe]
    · have : e.2 ≤ B * (1/5) := by exact_mod_cast of_decide_eq_true hpred
      rw [← hqe] at this
      exact this
    · rw [← hqe]

/-- A successful `sampledBest` returns one of the candidates, within the 20%
tolerance, together with its score pair. -/
theorem sampledBest_some {colors : List Color} {chip_values : List (Color × ℚ)} {B : ℚ}
    {cands : List (List (Color × ℕ))} {r : List (Color × ℕ) × (ℚ × ℚ)}
    (h : sampledBest colors chip_values B cands = some r) :
    r.1 ∈ cands ∧ |sampledTotal colors chip_values r.1 - B| ≤ B * (1/5) ∧
      r.2 = sampledScorePair B (sampledTotal colors chip_values r.1)
        ((r.1.map (fun e => e.2)).sum) := by
  have aux : ∀ (cands : List (List (Color × ℕ)))
      (acc : Option (List (Color × ℕ) × (ℚ × ℚ))),
      (cands.foldl
        (fun best combo =>
          let total := sampledTotal colors chip_values combo
          if |total - B| > B * (1/5) then best
          else
            let score := sampledScorePair B total ((combo.map (fun e => e.2)).sum)
            match best with
            | none => some (combo, score)
            | some b => if scoreGtQ score b.2 then some (combo, score) else best)
        acc = some r) →
      acc = some r ∨
        (r.1 ∈ cands ∧ |sampledTotal colors chip_values r.1 - B| ≤ B * (1/5) ∧
          r.2 = sampledScorePair B (sampledTotal colors chip_values r.1)
            ((r.1.map (fun e => e.2)).sum)) := by
    intro cands
    induction cands with
    | nil => intro acc h; exact Or.inl h
    | cons combo cands ih =>
      intro acc h
      simp only [List.foldl_cons] at h
      rcases ih _ h with h' | h'
      · by_cases hvalid : |sampledTotal colors chip_values combo - B| > B * (1/5)
        · rw [if_pos hvalid] at h'
          exact Or.inl h'
        · rw [if_neg hvalid] at h'
          cases acc with
          | none =>
            simp only [Option.some.injEq] at h'
            right
            rw [← h']
            exact ⟨List.mem_cons_self _ _, not_lt.mp hvalid, rfl⟩
          | some b =>
            simp only at h'
            by_cases hgt : scoreGtQ
                (sampledScorePair B (sampledTotal colors chip_values combo)
                  ((combo.map (fun e => e.2)).sum)) b.2
            · rw [if_pos hgt] at h'
              simp only [Option.some.injEq] at h'
              right
              rw [← h']
              exact ⟨List.mem_cons_self _ _, not_lt.mp hvalid, rfl⟩
            · rw [if_neg hgt] at h'
              exact Or.inl h'
      · exact Or.inr ⟨List.mem_cons_of_mem _ h'.1, h'.2⟩
  rcases aux cands none h with h' | h'
  · cases h'
  · exact h'

/-- If every candidate misses the tolerance, `sampledBest` finds nothing. -/
theorem sampledBest_none {colors : List Color} {chip_values : List (Color × ℚ)} {B : ℚ}
    {cands : List (List (Color × ℕ))}
    (h : ∀ combo ∈ cands, B * (1/5) < |sampledTotal colors chip_values combo - B|) :
    sampledBest colors chip_values B cands = none := by
  have aux : ∀ (cands : List (List (Color × ℕ))),
      (∀ combo ∈ cands, B * (1/5) < |sampledTotal colors chip_values combo - B|) →
      (cands.foldl
        (fun best combo =>
          let total := sampledTotal colors chip_values combo
          if |total - B| > B * (1/5) then best
          else
            let score := sampledScorePair B total ((combo.map (fun e => e.2)).sum)
            match best with
            | none => some (combo, score)
            | some b => if scoreGtQ score b.2 then some (combo, score) else best)
        none = none) := by
    intro cands
    induction cands with
    | nil => intro _; rfl
    | cons combo cands ih =>
      intro h
      simp only [List.foldl_cons,
        if_pos (h combo (List.mem_cons_self _ _))]
      exact ih (fun combo hc => h combo (List.mem_cons_of_mem _ hc))
  exact aux cands h

/-- `insertSorted` produces a permutation of `x :: l`. -/
theorem insertSorted_perm {α : Type} (lt : α → α → Bool) (x : α) :
    ∀ (l : List α), (insertSorted lt x l).Perm (x :: l) := by
  intro l
  induction l with
  | nil => exact List.Perm.refl _
  | cons y ys ih =>
    simp only [insertSorted]
    by_cases h : lt y x
    · rw [if_pos h]
      exact List.Perm.trans (List.Perm.cons y ih) (List.Perm.swap x y ys)
    · rw [if_neg h]

/-- The stable sort is a permutation of its input. -/
theorem stableSortBy_perm {α : Type} (lt : α → α → Bool) :
    ∀ (l : List α), (stableSortBy lt l).Perm l := by
  intro l
  induction l with
  | nil => exact List.Perm.refl _
  | cons x xs ih =>
    simp only [stableSortBy, List.foldr_cons]
    exact List.Perm.trans (insertSorted_perm lt x _) (List.Perm.cons x ih)

/-- Looking each color of `colors` up in `colors.zip vals` recovers `vals`
when the colors are distinct. -/
theorem lookup_zip_self {α : Type} (d : α) :
    ∀ (colors : List Color) (vals : List α), colors.Nodup →
      vals.length = colors.length →
      colors.map (fun c => lookupD (colors.zip vals) c d) = vals := by
  intro colors
  induction colors with
  | nil =>
    intro vals _ hlen
    cases vals with
    | nil => rfl
    | cons v vs => cases hlen
  | cons c cs ih =>
    intro vals hnd hlen
    cases vals with
    | nil => cases hlen
    | cons v vs =>
      simp only [List.zip_cons_cons, List.map_cons, lookupD_cons_self]
      have hnotmem : c ∉ cs := (List.nodup_cons.mp hnd).1
      have htail : cs.map (fun c' => lookupD ((c, v) :: cs.zip vs) c' d) =
          cs.map (fun c' => lookupD (cs.zip vs) c' d) := by
        apply List.map_congr_left
        intro c' hc'
        have hne : c ≠ c' := fun h => hnotmem (h ▸ hc')
        exact lookupD_cons_ne v (cs.zip vs) d hne
      rw [htail, ih vs (List.nodup_cons.mp hnd).2 (by simpa using hlen)]

/-! ## Bounds on the sampled-path candidates -/

/-- The invariant of every sampled-path candidate entry: at least one chip,
at most `max_chips_per_color` of its color, and a positive per-color
maximum. -/
def comboOK (maxc : List (Color × ℕ)) (combo : List (Color × ℕ)) : Prop :=
  ∀ e ∈ combo, 1 ≤ e.2 ∧ e.2 ≤ lookupD maxc e.1 0 ∧ 1 ≤ lookupD maxc e.1 0

theorem balancedCombo_keys (colors : List Color) (chip_values : List (Color × ℚ))
    (maxc : List (Color × ℕ)) (buy_in : ℚ) :
    (balancedCombo colors chip_values maxc buy_in).map (fun e => e.1) = colors := by
  simp [balancedCombo, Function.comp_def]

theorem balancedCombo_ok (colors : List Color) (chip_values : List (Color × ℚ))
    (maxc : List (Color × ℕ)) (buy_in : ℚ)
    (hmax : ∀ c ∈ colors, 1 ≤ lookupD maxc c 0) :
    comboOK maxc (balancedCombo colors chip_values maxc buy_in) := by
  intro e he
  simp only [balancedCombo, List.mem_map] at he
  obtain ⟨c, hc, rfl⟩ := he
  refine ⟨?_, ?_, hmax c hc⟩
  · have h1 : (1 : ℤ) ≤ max 1 (⌊buy_in / (chip_values.map (fun e => e.2)).sum⌋ * colors.length) :=
      le_max_left _ _
    have := hmax c hc
    simp only [le_min_iff]
    omega
  · exact min_le_right _ _

theorem greedyCombo_keys (sortedColors : List Color) (chip_values : List (Color × ℚ))
    (maxc : List (Color × ℕ)) (buy_in : ℚ) (divisor : ℚ) :
    (greedyCombo sortedColors chip_values maxc buy_in divisor).map (fun e => e.1) =
      sortedColors := by
  have aux : ∀ (cols : List Color) (st : ℚ × List (Color × ℕ)),
      ((cols.foldl
        (fun (st : ℚ × List (Color × ℕ)) c =>
          let maxv := lookupD maxc c 0
          let v := lookupD chip_values c 0
          let t := min maxv (max 1 (ratTrunc (st.1 / (v * divisor)))).toNat
          (st.1 - (t : ℚ) * v, st.2 ++ [(c, t)]))
        st).2).map (fun e => e.1) = (st.2.map (fun e => e.1)) ++ cols := by
    intro cols
    induction cols with
    | nil => intro st; simp
    | cons c cols ih =>
      intro st
      simp only [List.foldl_cons]
      rw [ih]
      simp
  simpa [greedyCombo] using aux sortedColors (buy_in, [])

theorem greedyCombo_ok (sortedColors : List Color) (chip_values : List (Color × ℚ))
    (maxc : List (Color × ℕ)) (buy_in : ℚ) (divisor : ℚ)
    (hmax : ∀ c ∈ sortedColors, 1 ≤ lookupD maxc c 0) :
    comboOK maxc (greedyCombo sortedColors chip_values maxc buy_in divisor) := by
  have aux : ∀ (cols : List Color) (st : ℚ × List (Color × ℕ)),
      (∀ c ∈ cols, 1 ≤ lookupD maxc c 0) →
      comboOK maxc st.2 →
      comboOK maxc
        ((cols.foldl
          (fun (st : ℚ × List (Color × ℕ)) c =>
            let maxv := lookupD maxc c 0
            let v := lookupD chip_values c 0
            let t := min maxv (max 1 (ratTrunc (st.1 / (v * divisor)))).toNat
            (st.1 - (t : ℚ) * v, st.2 ++ [(c, t)]))
          st).2) := by
    intro cols
    induction cols with
    | nil => intro st _ hst; exact hst
    | cons c cols ih =>
      intro st hcols hst
      simp only [List.foldl_cons]
      refine ih _ (fun c' hc' => hcols c' (List.mem_cons_of_mem _ hc')) ?_
      intro e he
      rcases List.mem_append.mp he with he | he
      · exact hst e he
      · have hc := hcols c (List.mem_cons_self _ _)
        rcases List.mem_singleton.mp he with rfl
        refine ⟨?_, min_le_left _ _, hc⟩
        have h1 : (1 : ℤ) ≤ max 1 (ratTrunc (st.1 / (lookupD chip_values c 0 * divisor))) :=
          le_max_left _ _
        simp only [le_min_iff]
        omega
  exact aux sortedColors (buy_in, []) hmax (fun e he => absurd he (List.not_mem_nil e))

theorem updateCombo_keys (maxc : List (Color × ℕ)) (combo : List (Color × ℕ))
    (c : Color) (adj : ℤ) :
    (updateCombo maxc combo c adj).map (fun e => e.1) = combo.map (fun e => e.1) := by
  simp only [updateCombo, List.map_map]
  apply List.map_congr_left
  intro e _
  by_cases h : e.1 = c <;> simp [h]

theorem updateCombo_ok (maxc : List (Color × ℕ)) (combo : List (Color × ℕ))
    (c : Color) (adj : ℤ) (h : comboOK maxc combo) :
    comboOK maxc (updateCombo maxc combo c adj) := by
  intro e he
  simp only [updateCombo, List.mem_map] at he
  obtain ⟨e', he', heq⟩ := he
  obtain ⟨h1, h2, h3⟩ := h e' he'
  by_cases hc : e'.1 == c
  · rw [if_pos hc] at heq
    subst heq
    refine ⟨?_, ?_, h3⟩ <;>
      · simp only [clampAdjust]
        omega
  · rw [if_neg hc] at heq
    subst heq
    exact ⟨h1, h2, h3⟩

theorem applyAdjustments_keys (maxc : List (Color × ℕ)) :
    ∀ (adjs : List (Color × ℤ)) (combo : List (Color × ℕ)),
      (applyAdjustments maxc combo adjs).map (fun e => e.1) = combo.map (fun e => e.1) := by
  intro adjs
  induction adjs with
  | nil => intro combo; rfl
  | cons a adjs ih =>
    intro combo
    simp only [applyAdjustments, List.foldl_cons]
    rw [show (adjs.foldl (fun v e => updateCombo maxc v e.1 e.2)
        (updateCombo maxc combo a.1 a.2)) =
      applyAdjustments maxc (updateCombo maxc combo a.1 a.2) adjs from rfl]
    rw [ih, updateCombo_keys]

theorem applyAdjustments_ok (maxc : List (Color × ℕ)) :
    ∀ (adjs : List (Color × ℤ)) (combo : List (Color × ℕ)),
      comboOK maxc combo → comboOK maxc (applyAdjustments maxc combo adjs) := by
  intro adjs
  induction adjs with
  | nil => intro combo h; exact h
  | cons a adjs ih =>
    intro combo h
    simp only [applyAdjustments, List.foldl_cons]
    exact ih _ (updateCombo_ok maxc combo a.1 a.2 h)

/-- The second component of an `enum` member is a member of the list. -/
theorem snd_mem_of_mem_enum {α : Type} {l : List α} {x : ℕ × α} (h : x ∈ l.enum) :
    x.2 ∈ l := by
  have hx := List.mem_enum_iff_getElem?.mp h
  rw [List.getElem?_eq_some] at hx
  obtain ⟨hlt, hget⟩ := hx
  exact hget ▸ List.getElem_mem hlt

/-- Every candidate of the sampled path satisfies the entry bounds, and its
keys cover the colors. -/
theorem allCandidates_ok {oracle : RandOracle} {colors : List Color}
    {chip_values : List (Color × ℚ)} {maxc : List (Color × ℕ)} {buy_in : ℚ}
    {combo : List (Color × ℕ)}
    (hmax : ∀ c ∈ colors, 1 ≤ lookupD maxc c 0)
    (hmem : combo ∈ allCandidates oracle colors chip_values maxc buy_in) :
    comboOK maxc combo ∧ ∀ c ∈ colors, c ∈ combo.map (fun e => e.1) := by
  have htargets : ∀ t ∈ targetCombinations colors chip_values maxc buy_in,
      comboOK maxc t ∧ ∀ c ∈ colors, c ∈ t.map (fun e => e.1) := by
    intro t ht
    have hdesc : ∀ c ∈ sortColorsByValueDesc colors chip_values, 1 ≤ lookupD maxc c 0 :=
      fun c hc => hmax c ((stableSortBy_perm _ colors).mem_iff.mp hc)
    have hasc : ∀ c ∈ sortColorsByValueAsc colors chip_values, 1 ≤ lookupD maxc c 0 :=
      fun c hc => hmax c ((stableSortBy_perm _ colors).mem_iff.mp hc)
    simp only [targetCombinations, List.mem_cons, List.mem_singleton,
      List.not_mem_nil, or_false] at ht
    rcases ht with rfl | rfl | rfl
    · refine ⟨balancedCombo_ok _ _ _ _ hmax, ?_⟩
      intro c hc
      rw [balancedCombo_keys]
      exact hc
    · refine ⟨greedyCombo_ok _ _ _ _ _ hdesc, ?_⟩
      intro c hc
      rw [greedyCombo_keys]
      exact ((stableSortBy_perm _ colors).mem_iff).mpr hc
    · refine ⟨greedyCombo_ok _ _ _ _ _ hasc, ?_⟩
      intro c hc
      rw [greedyCombo_keys]
      exact ((stableSortBy_perm _ colors).mem_iff).mpr hc
  simp only [allCandidates, List.mem_append] at hmem
  rcases hmem with hmem | hmem
  · exact htargets combo hmem
  · simp only [List.mem_flatten, List.mem_map] at hmem
    obtain ⟨l, ⟨be, hbe, rfl⟩, hl⟩ := hmem
    obtain ⟨vi, _, rfl⟩ := List.mem_map.mp hl
    have hbase := htargets be.2 (snd_mem_of_mem_enum hbe)
    refine ⟨applyAdjustments_ok maxc _ _ hbase.1, ?_⟩
    intro c hc
    rw [applyAdjustments_keys]
    exact hbase.2 c hc

/-! ## The quantity-search no-over-allocation bound -/

theorem maxChipsPerColor_some {cs : ChipSet} {colors : List Color} {p : ℕ}
    {maxc : List (Color × ℕ)} (h : maxChipsPerColor cs colors p = some maxc) :
    maxc = colors.map (fun c => (c, cs.get_color_count c / p)) ∧
      ∀ c ∈ colors, 1 ≤ cs.get_color_count c / p := by
  unfold maxChipsPerColor at h
  by_cases hall : colors.all (fun c => cs.get_color_count c / p != 0)
  · rw [if_pos hall] at h
    refine ⟨(Option.some.injEq _ _ ▸ h).symm, ?_⟩
    intro c hc
    have := List.all_eq_true.mp hall c hc
    simp only [bne_iff_ne, ne_eq] at this
    exact Nat.one_le_iff_ne_zero.mpr this
  · rw [if_neg hall] at h
    cases h

/-- In the per-color maxima dict, the lookup of a listed color is its
`count // num_players`. -/
theorem lookupD_maxc {cs : ChipSet} {colors : List Color} {p : ℕ} {c : Color}
    (hc : c ∈ colors) :
    lookupD (colors.map (fun c => (c, cs.get_color_count c / p))) c 0 =
      cs.get_color_count c / p :=
  lookupD_map_self (fun c => cs.get_color_count c / p) 0 colors c hc

/-- A row of the exhaustive combination space is bounded per index by the
per-color maxima. -/
theorem productLists_row_bound {cs : ChipSet} {colors : List Color} {p : ℕ}
    {q : List ℕ}
    (hq : q ∈ productLists ((colors.map (fun c => (c, cs.get_color_count c / p))).map
      (fun e => List.range' 1 e.2)))
    {c : Color} {y : ℕ} (hcy : (c, y) ∈ colors.zip q) :
    1 ≤ y ∧ y ≤ cs.get_color_count c / p := by
  have hf := mem_productLists hq
  obtain ⟨i, hci, hqi⟩ := mem_zip_get? hcy
  have hri : ((colors.map (fun c => (c, cs.get_color_count c / p))).map
      (fun e => List.range' 1 e.2)).get? i =
      some (List.range' 1 (cs.get_color_count c / p)) := by
    rw [List.get?_map, List.get?_map, hci]
    rfl
  exact mem_range'_one (forall₂_get? hf hqi hri)

/-- C1 core (amended form): every quantity assignment produced by the
quantity search — the exhaustive/batched path and the randomized sampled
path alike — never over-allocates: for every entry `(c, q)` of the returned
`chips_per_player`, `q * num_players ≤ inventory[c]`. -/
theorem evaluate_distribution_no_overallocation {oracle : RandOracle} {numCores : ℕ}
    {cs : ChipSet} {colors : List Color} {values : List ℚ} {B : ℚ} {p : ℕ}
    {d : ChipDistribution} (hp : 0 < p)
    (hd : evaluate_distribution oracle numCores cs colors values B p = some d) :
    ∀ e ∈ d.chips_per_player, e.2 * p ≤ cs.get_color_count e.1 := by
  unfold evaluate_distribution at hd
  rcases hmc : maxChipsPerColor cs colors p with _ | maxc
  · rw [hmc] at hd; cases hd
  · rw [hmc] at hd
    obtain ⟨hmaxc, hpos⟩ := maxChipsPerColor_some hmc
    have hmax : ∀ c ∈ colors, 1 ≤ lookupD maxc c 0 := by
      intro c hc
      rw [hmaxc, lookupD_maxc hc]
      exact hpos c hc
    simp only at hd
    by_cases hth : (maxc.map (fun e => e.2)).prod > maxCombinationsThreshold
    · rw [if_pos hth] at hd
      unfold evaluate_distribution_sampled at hd
      rcases hsb : sampledBest colors (colors.zip values) B
          (allCandidates oracle colors (colors.zip values) maxc B) with _ | b
      · rw [hsb] at hd; cases hd
      · rw [hsb] at hd
        obtain ⟨hbmem, _, _⟩ := sampledBest_some hsb
        obtain ⟨hok, _⟩ := allCandidates_ok hmax hbmem
        simp only [Option.some.injEq] at hd
        subst hd
        intro e he
        obtain ⟨h1, h2, _⟩ := hok e he
        rcases lookupD_eq_or_mem maxc e.1 0 with hz | ⟨en, hen, hkey, hval⟩
        · omega
        · rw [hval] at h2
          rw [hmaxc] at hen
          obtain ⟨c', hc', rfl⟩ := List.mem_map.mp hen
          simp only at hkey h2
          subst hkey
          exact (Nat.le_div_iff_mul_le hp).mp h2
    · rw [if_neg hth] at hd
      rcases hrr : reduceResults
          ((chunked (max 1000 ((maxc.map (fun e => e.2)).prod / (numCores * 4)))
            (productLists (maxc.map (fun e => List.range' 1 e.2)))).map
            (fun b => evaluate_combinations_batch b colors (colors.zip values) B))
          with _ | best
      · rw [hrr] at hd; cases hd
      · rw [hrr] at hd
        obtain ⟨b, hb, hfb⟩ := List.mem_map.mp (reduceResults_mem hrr)
        obtain ⟨q, hqb, hq1, _, _⟩ := evaluate_combinations_batch_some hfb
        have hqall : q ∈ productLists (maxc.map (fun e => List.range' 1 e.2)) :=
          chunked_subset hb q hqb
        simp only [Option.some.injEq] at hd
        subst hd
        intro e he
        simp only [hq1] at he
        obtain ⟨c, y⟩ := e
        rw [hmaxc] at hqall
        have := (productLists_row_bound hqall he).2
        exact (Nat.le_div_iff_mul_le hp).mp this

/-! ## Claim C1 -/

unseal Rat.add Rat.mul Rat.inv Rat.sub in
/-- C1 (counterexample): the claim "every distribution returned by
`calculate_optimal_split` (including the fallback path) satisfies
`q[c] * p ≤ I[c]`" fails on the fallback path.  With inventory
`{white: 10, red: 1}`, pool `[0.25, 0.5]`, buy-in 10 and 2 players, every
value permutation is infeasible (red has `1 // 2 = 0`), so the fallback
returns one red chip per player: `1 * 2 = 2 > I[red] = 1`. -/
theorem C1_counterexample :
    calculate_optimal_split (fun _ _ => []) 4 [1/4, 1/2]
        ⟨[("white", 10), ("red", 1)]⟩ 10 2 =
      .ok ⟨[("white", 1/4), ("red", 1/2)], [("white", 1), ("red", 1)], 3/4,
        [("white", 9), ("red", 0)], 1⟩ ∧
    ¬(lookupD [(("white" : Color), (1 : ℕ)), ("red", 1)] "red" 0 * 2 ≤
        ChipSet.get_color_count ⟨[("white", 10), ("red", 1)]⟩ "red") := by
  constructor
  · decide
  · decide

/-- C1 (amended): the no-over-allocation invariant holds for every
distribution the quantity search returns — on the exhaustive/batched path
and on the randomized sampled path alike: every entry `(c, q)` of
`chips_per_player` satisfies `q * num_players ≤ inventory[c]`.  The fallback
path does not satisfy it (see the counterexample): it always assigns one
chip per color, which over-allocates any color whose inventory is below the
participant count. -/
theorem C1_quantity_search_no_overallocation {oracle : RandOracle} {numCores : ℕ}
    {cs : ChipSet} {colors : List Color} {values : List ℚ} {B : ℚ} {p : ℕ}
    {d : ChipDistribution} (hp : 0 < p)
    (hd : evaluate_distribution oracle numCores cs colors values B p = some d) :
    ∀ e ∈ d.chips_per_player, e.2 * p ≤ cs.get_color_count e.1 :=
  evaluate_distribution_no_overallocation hp hd

unseal Rat.add Rat.mul Rat.inv Rat.sub in
/-- C1 (witness): the amended theorem applied at inventory `{w: 4}`,
one color of value 1, buy-in 2, 2 players — the search returns 2 chips of
`w` per player and indeed `2 * 2 ≤ 4`. -/
theorem C1_witness :
    (2 : ℕ) * 2 ≤ ChipSet.get_color_count ⟨[("w", 4)]⟩ "w" :=
  @C1_quantity_search_no_overallocation (fun _ _ => []) 4
    ⟨[("w", 4)]⟩ ["w"] [1] 2 2
    ⟨[("w", 1)], [("w", 2)], 2, [("w", 0)], 1⟩
    (by decide) (by decide) ("w", 2) (by decide)

/-! ## Claim C3 -/

unseal Rat.add Rat.mul Rat.inv Rat.sub in
/-- C3 (code bug): on the spec's own Scenario B input — inventory
`{white: 1, red: 1}`, buy-in 1000, 10 players, the default pool — every
candidate is infeasible and `max_possible_chips = Σ floor(count/10) = 0`, so
line 129 of calculator.py (`buy_in_per_person / max_possible_chips`) raises
`ZeroDivisionError` instead of reaching the fallback that the claim (and the
repository's own `test_fallback_distribution`) expects. -/
theorem C3_zero_division_on_scenario_B :
    calculate_optimal_split (fun _ _ => []) 4 DEFAULT_CHIP_VALUES
        ⟨[("white", 1), ("red", 1)]⟩ 1000 10 = .error .zeroDivision := by
  decide

/-! ## Claim C8 -/

unseal Rat.add Rat.mul Rat.inv Rat.sub in
/-- C8 (code bug): the calculator constructs every returned
`ChipDistribution` without passing `num_players`, so the record's
participant-count field stays at the dataclass default 1 even though the
search ran for 2 players: with inventory `{red: 4}`, pool `[1]`, buy-in 2
and `num_players = 2`, the returned record has `num_players = 1 ≠ 2`. -/
theorem C8_num_players_not_propagated :
    calculate_optimal_split (fun _ _ => []) 4 [1] ⟨[("red", 4)]⟩ 2 2 =
      .ok ⟨[("red", 1)], [("red", 2)], 2, [("red", 0)], 1⟩ ∧
    ChipDistribution.num_players
        ⟨[("red", 1)], [("red", 2)], 2, [("red", 0)], 1⟩ ≠ 2 := by
  constructor
  · decide
  · decide

/-! ## Claim C9 -/

unseal Rat.add Rat.mul Rat.inv Rat.sub in
/-- C9 (counterexample): efficiency 0 does not imply that the unused token
count is 0.  The record with `chips_per_player = {w: 0}`, `num_players = 3`
and `unused_chips = {w: 7}` has `get_efficiency = 0` (no token is used) while
7 tokens are unused, contradicting "equals 0 exactly when both used and
unused token counts are 0". -/
theorem C9_counterexample :
    ChipDistribution.get_efficiency ⟨[("w", 1)], [("w", 0)], 0, [("w", 7)], 3⟩ = 0 ∧
    ChipDistribution.get_total_unused_chips
        ⟨[("w", 1)], [("w", 0)], 0, [("w", 7)], 3⟩ ≠ 0 := by
  constructor
  · decide
  · decide

/-- C9 (amended): for records whose unused counts are non-negative (the
data-model invariant; quantities are non-negative by type), the derived
efficiency lies in `[0, 100]`, and it equals 0 exactly when the used token
count is 0 — the unused count may well be positive. -/
theorem C9_efficiency_bounds (d : ChipDistribution)
    (hu : ∀ e ∈ d.unused_chips, 0 ≤ e.2) :
    0 ≤ d.get_efficiency ∧ d.get_efficiency ≤ 100 ∧
      (d.get_efficiency = 0 ↔ d.usedTokens = 0) := by
  have hused : 0 ≤ d.usedTokens := by
    apply List.sum_nonneg
    intro x hx
    obtain ⟨e, _, rfl⟩ := List.mem_map.mp hx
    positivity
  have hua : d.usedTokens ≤ d.availableTokens := by
    unfold ChipDistribution.usedTokens ChipDistribution.availableTokens
    apply List.sum_le_sum
    intro e _
    have : 0 ≤ lookupD d.unused_chips e.1 0 := by
      rcases lookupD_eq_or_mem d.unused_chips e.1 0 with h | ⟨en, hen, _, hval⟩
      · omega
      · rw [hval]; exact hu en hen
    omega
  unfold ChipDistribution.get_efficiency
  by_cases hz : d.availableTokens = 0
  · rw [if_pos hz]
    refine ⟨le_refl 0, by norm_num, ?_⟩
    simp only [true_iff]
    omega
  · rw [if_neg hz]
    have hzpos : (0 : ℤ) < d.availableTokens := lt_of_le_of_ne (le_trans hused hua) (Ne.symm hz)
    have hzq : (0 : ℚ) < (d.availableTokens : ℚ) := by exact_mod_cast hzpos
    refine ⟨?_, ?_, ?_⟩
    · have : (0 : ℚ) ≤ (d.usedTokens : ℚ) / (d.availableTokens : ℚ) :=
        div_nonneg (by exact_mod_cast hused) (le_of_lt hzq)
      positivity
    · have h1 : (d.usedTokens : ℚ) / (d.availableTokens : ℚ) ≤ 1 :=
        (div_le_one hzq).mpr (by exact_mod_cast hua)
      nlinarith
    · constructor
      · intro h
        have : (d.usedTokens : ℚ) / (d.availableTokens : ℚ) = 0 := by
          by_contra hne
          exact hne (by linarith [mul_eq_zero.mp h])
        rcases div_eq_zero_iff.mp this with h' | h'
        · exact_mod_cast h'
        · exact absurd h' (ne_of_gt hzq)
      · intro h
        rw [h]
        norm_num

unseal Rat.add Rat.mul Rat.inv Rat.sub in
/-- C9 (witness): the amended theorem applied to the counterexample record
(non-negative unused counts): its efficiency is within `[0, 100]` and is 0
exactly because no token is used. -/
theorem C9_witness :
    0 ≤ ChipDistribution.get_efficiency ⟨[("w", 1)], [("w", 0)], 0, [("w", 7)], 3⟩ ∧
    ChipDistribution.get_efficiency ⟨[("w", 1)], [("w", 0)], 0, [("w", 7)], 3⟩ ≤ 100 ∧
      (ChipDistribution.get_efficiency ⟨[("w", 1)], [("w", 0)], 0, [("w", 7)], 3⟩ = 0 ↔
        ChipDistribution.usedTokens ⟨[("w", 1)], [("w", 0)], 0, [("w", 7)], 3⟩ = 0) :=
  C9_efficiency_bounds ⟨[("w", 1)], [("w", 0)], 0, [("w", 7)], 3⟩ (by decide)

/-! ## Claim C10 -/

/-- Below the sampling threshold the quantity search never consults the
random oracle: its result is the same for any two oracles.  (The threshold
count depends only on the inventory, the color list and the participant
count, not on the assigned values.) -/
theorem evaluate_distribution_oracle_irrel {numCores : ℕ} {cs : ChipSet}
    {colors : List Color} {values : List ℚ} {B : ℚ} {p : ℕ}
    (ht : totalCombinations cs colors p ≤ maxCombinationsThreshold)
    (o₁ o₂ : RandOracle) :
    evaluate_distribution o₁ numCores cs colors values B p =
      evaluate_distribution o₂ numCores cs colors values B p := by
  unfold evaluate_distribution
  rcases hmc : maxChipsPerColor cs colors p with _ | maxc
  · rfl
  · obtain ⟨hmaxc, -⟩ := maxChipsPerColor_some hmc
    have htot : (maxc.map (fun e => e.2)).prod = totalCombinations cs colors p := by
      rw [hmaxc, List.map_map]
      simp [totalCombinations, Function.comp_def]
    simp only
    have hneg : ¬((maxc.map (fun e => e.2)).prod > maxCombinationsThreshold) := by
      rw [htot]; omega
    simp only [if_neg hneg]

/-- The permutation loop is oracle-independent when every quantity search it
runs stays below the sampling threshold. -/
theorem searchLoop_oracle_irrel {numCores : ℕ} {cs : ChipSet}
    {colorsAvail : List Color} {B : ℚ} {p : ℕ} {maxPossible : ℕ}
    (ht : totalCombinations cs colorsAvail p ≤ maxCombinationsThreshold)
    (o₁ o₂ : RandOracle) :
    ∀ (perms : List (List ℚ)) (best : Option (ChipDistribution × (ℚ × ℚ))),
      searchLoop o₁ numCores cs colorsAvail B p maxPossible perms best =
        searchLoop o₂ numCores cs colorsAvail B p maxPossible perms best := by
  intro perms
  induction perms with
  | nil => intro best; rfl
  | cons vc rest ih =>
    intro best
    simp only [searchLoop]
    rw [evaluate_distribution_oracle_irrel ht o₁ o₂]
    by_cases hpr : pruneCheck vc B
    · rw [if_pos hpr, if_pos hpr, ih]
    · rw [if_neg hpr, if_neg hpr]
      rcases evaluate_distribution o₂ numCores cs colorsAvail vc B p with _ | dist
      · exact ih best
      · simp only
        split
        · rfl
        · split
          · rfl
          · exact ih _

/-- C10: below the 200 000-combination sampling threshold (a quantity that
depends only on the inventory, the sorted color list and the participant
count, and is shared by every evaluated value assignment),
`calculate_optimal_split` is deterministic: two runs on identical inputs —
i.e. under any two random oracles — return the identical result.  Only
threshold-crossing inputs reach the randomized sampled path. -/
theorem C10_deterministic_below_threshold {numCores : ℕ} {cs : ChipSet}
    {possible_values : List ℚ} {B : ℚ} {p : ℕ}
    (ht : totalCombinations cs (colorsByAvailability cs p) p ≤ maxCombinationsThreshold)
    (o₁ o₂ : RandOracle) :
    calculate_optimal_split o₁ numCores possible_values cs B p =
      calculate_optimal_split o₂ numCores possible_values cs B p := by
  unfold calculate_optimal_split
  by_cases hpool : possible_values.length < (cs.colors.map (fun e => e.1)).length
  · rw [if_pos hpool, if_pos hpool]
  · rw [if_neg hpool, if_neg hpool]
    simp only
    by_cases hmp : ((colorsByAvailability cs p).map
        (fun c => cs.get_color_count c / p)).sum = 0
    · rw [if_pos hmp, if_pos hmp]
    · rw [if_neg hmp, if_neg hmp]
      rw [searchLoop_oracle_irrel ht o₁ o₂]

unseal Rat.add Rat.mul Rat.inv Rat.sub in
/-- C10 (witness): at inventory `{w: 4}`, 2 players, pool `[1]` the
combination space has size 2 ≤ 200 000, and the runs under two different
oracles agree. -/
theorem C10_witness :
    totalCombinations ⟨[("w", 4)]⟩ (colorsByAvailability ⟨[("w", 4)]⟩ 2) 2 ≤
        maxCombinationsThreshold ∧
    calculate_optimal_split (fun _ _ => [("w", 1)]) 4 [1] ⟨[("w", 4)]⟩ 2 2 =
      calculate_optimal_split (fun _ _ => []) 4 [1] ⟨[("w", 4)]⟩ 2 2 :=
  ⟨by decide,
    C10_deterministic_below_threshold (by decide) (fun _ _ => [("w", 1)]) (fun _ _ => [])⟩

/-! ## Claim C7 -/

/-- C7: with a candidate pool smaller than the number of colors,
`calculate_optimal_split` always fails with the designated configuration
error (`ValueError` / `notEnoughValues`), and the permutation loop submits
no value assignment at all to the quantity search before failing. -/
theorem C7_insufficient_pool_fails {oracle : RandOracle} {numCores : ℕ}
    {possible_values : List ℚ} {cs : ChipSet} {B : ℚ} {p : ℕ}
    (h : possible_values.length < (cs.colors.map (fun e => e.1)).length) :
    calculate_optimal_split oracle numCores possible_values cs B p =
        .error .notEnoughValues ∧
      attemptedValueCombos possible_values cs B p = [] := by
  constructor
  · unfold calculate_optimal_split
    rw [if_pos h]
  · unfold attemptedValueCombos
    rw [if_pos h]

/-- C7 (witness): a pool of 1 value for 5 colors (spec Scenario C has 2 for
5; any `k < n` input discharges the hypothesis) fails with the
configuration error and attempts nothing. -/
theorem C7_witness :
    calculate_optimal_split (fun _ _ => []) 4 [1]
        ⟨[("white", 100), ("red", 80), ("green", 60), ("black", 40), ("blue", 20)]⟩
        20 4 = .error .notEnoughValues ∧
      attemptedValueCombos [1]
        ⟨[("white", 100), ("red", 80), ("green", 60), ("black", 40), ("blue", 20)]⟩
        20 4 = [] :=
  C7_insufficient_pool_fails (by decide)

/-! ## Claim C4 -/

unseal Rat.add Rat.mul Rat.inv Rat.sub in
/-- C4 (counterexample): in the sampled path the claimed preference order is
violated.  With one color of value 1 and target 20, the candidate with 20
chips has deviation 0 while the candidate with 24 chips has deviation 4 —
far beyond the $0.25 grace band — yet the sampled selection picks the
24-chip candidate: its score pair `(240, -375)` beats `(200, 0)`
lexicographically, because the sampled score puts token count first. -/
theorem C4_counterexample :
    sampledBest ["w"] [("w", 1)] 20 [[("w", 20)], [("w", 24)]] =
      some ([("w", 24)], (240, -375)) ∧
    |sampledTotal ["w"] [("w", 1)] [("w", 20)] - 20| = 0 ∧
    |sampledTotal ["w"] [("w", 1)] [("w", 24)] - 20| = 4 := by
  refine ⟨by decide, by decide, by decide⟩

/-- C4 (amended): both quantity-search paths do reject every combination
whose absolute deviation exceeds 20% of the target, and in the batch path
the score is `accuracy·100 + chips`; but the two paths order valid
combinations differently: the sampled path's score pair
`(chips · 10, −100·max(0, deviation − 0.25))` is compared lexicographically,
so there a higher token count always wins regardless of deviations (the
deviation, beyond the $0.25 grace, only breaks token-count ties);
accuracy dominance holds only in the batch path's scalar score. -/
theorem C4_tolerance_and_scoring :
    (∀ (batch : List (List ℕ)) (colors : List Color) (cv : List (Color × ℚ)) (B : ℚ)
        (res : List (Color × ℕ) × (ℚ × ℚ)),
        evaluate_combinations_batch batch colors cv B = some res →
        ∃ q ∈ batch, res.1 = colors.zip q ∧
          |dot q (colors.map (fun c => lookupD cv c 0)) - B| ≤ B * (1/5)) ∧
    (∀ (colors : List Color) (cv : List (Color × ℚ)) (B : ℚ)
        (cands : List (List (Color × ℕ))) (r : List (Color × ℕ) × (ℚ × ℚ)),
        sampledBest colors cv B cands = some r →
        r.1 ∈ cands ∧ |sampledTotal colors cv r.1 - B| ≤ B * (1/5)) ∧
    (∀ (B t₁ t₂ : ℚ) (c₁ c₂ : ℕ), c₁ < c₂ →
        scoreGtQ (sampledScorePair B t₂ c₂) (sampledScorePair B t₁ c₁)) := by
  refine ⟨?_, ?_, ?_⟩
  · intro batch colors cv B res h
    obtain ⟨q, hq, h1, h2, _⟩ := evaluate_combinations_batch_some h
    exact ⟨q, hq, h1, h2⟩
  · intro colors cv B cands r h
    obtain ⟨h1, h2, _⟩ := sampledBest_some h
    exact ⟨h1, h2⟩
  · intro B t₁ t₂ c₁ c₂ h
    exact Or.inl (by
      simp only [sampledScorePair]
      have : (c₁ : ℚ) < (c₂ : ℚ) := by exact_mod_cast h
      nlinarith)

unseal Rat.add Rat.mul Rat.inv Rat.sub in
/-- C4 (witness): the amended theorem's token-dominance part applied at the
counterexample's numbers: 24 chips beat 20 chips in the sampled ordering
whatever the deviations. -/
theorem C4_witness :
    scoreGtQ (sampledScorePair 20 24 24) (sampledScorePair 20 20 20) :=
  C4_tolerance_and_scoring.2.2 20 20 24 20 24 (by decide)

/-! ## Claim C6 -/

/-- Summing `best[c] * chip_values[c]` over distinct colors equals the
positional products of the underlying rows. -/
theorem map_lookup_zip_prod :
    ∀ (colors : List Color) (q : List ℕ) (values : List ℚ), colors.Nodup →
      q.length = colors.length → values.length = colors.length →
      colors.map (fun c =>
          ((lookupD (colors.zip q) c 0 : ℕ) : ℚ) * lookupD (colors.zip values) c 0) =
        (q.zip values).map (fun e => (e.1 : ℚ) * e.2) := by
  intro colors
  induction colors with
  | nil =>
    intro q values _ hq hv
    rw [List.length_eq_zero.mp hq, List.length_eq_zero.mp hv]
    rfl
  | cons c cs ih =>
    intro q values hnd hq hv
    cases q with
    | nil => cases hq
    | cons a as =>
      cases values with
      | nil => cases hv
      | cons v vs =>
        simp only [List.zip_cons_cons, List.map_cons, lookupD_cons_self]
        have hnotmem : c ∉ cs := (List.nodup_cons.mp hnd).1
        have htail : cs.map (fun c' =>
            ((lookupD ((c, a) :: cs.zip as) c' 0 : ℕ) : ℚ) *
              lookupD ((c, v) :: cs.zip vs) c' 0) =
            cs.map (fun c' =>
              ((lookupD (cs.zip as) c' 0 : ℕ) : ℚ) * lookupD (cs.zip vs) c' 0) := by
          apply List.map_congr_left
          intro c' hc'
          have hne : c ≠ c' := fun h => hnotmem (h ▸ hc')
          rw [lookupD_cons_ne a (cs.zip as) 0 hne, lookupD_cons_ne v (cs.zip vs) 0 hne]
        rw [htail, ih as vs (List.nodup_cons.mp hnd).2 (by simpa using hq)
          (by simpa using hv)]

/-- Commuting the zipped positional products. -/
theorem zip_mul_comm_sum :
    ∀ (v : List ℚ) (q : List ℕ),
      ((v.zip q).map (fun e => e.1 * (e.2 : ℚ))).sum =
        ((q.zip v).map (fun e => (e.1 : ℚ) * e.2)).sum := by
  intro v
  induction v with
  | nil => intro q; cases q <;> rfl
  | cons x xs ih =>
    intro q
    cases q with
    | nil => rfl
    | cons a as =>
      simp only [List.zip_cons_cons, List.map_cons, List.sum_cons, ih as]
      ring

/-- Zipping against an all-ones quantity list sums to the value sum. -/
theorem zip_ones_sum :
    ∀ (xs : List ℚ) (ys : List ℕ), (∀ y ∈ ys, y = 1) → xs.length = ys.length →
      ((xs.zip ys).map (fun e => e.1 * (e.2 : ℚ))).sum = xs.sum := by
  intro xs
  induction xs with
  | nil => intro ys _ _; rfl
  | cons x xs ih =>
    intro ys hy hlen
    cases ys with
    | nil => cases hlen
    | cons y ys =>
      have hy1 : y = 1 := hy y (List.mem_cons_self _ _)
      simp only [List.zip_cons_cons, List.map_cons, List.sum_cons, hy1]
      rw [ih ys (fun y hy' => hy y (List.mem_cons_of_mem _ hy')) (by simpa using hlen)]
      push_cast
      ring

/-- C6 (amended): the round-trip `get_player_value = total_value_per_player`
holds exactly for the records built by the exhaustive/batched quantity
search (below the sampling threshold) and by the fallback: there the value
dict and the quantity dict share the same key order, so the positional zip
in `get_player_value` pairs each value with its own quantity.  (In the
sampled path the quantity dict's key order can differ from the value dict's
and the round-trip fails — see the counterexample.) -/
theorem C6_total_value_roundtrip :
    (∀ (oracle : RandOracle) (numCores : ℕ) (cs : ChipSet) (colors : List Color)
        (values : List ℚ) (B : ℚ) (p : ℕ) (d : ChipDistribution),
        colors.Nodup → values.length = colors.length →
        totalCombinations cs colors p ≤ maxCombinationsThreshold →
        evaluate_distribution oracle numCores cs colors values B p = some d →
        d.get_player_value = d.total_value_per_player) ∧
    (∀ (possible_values : List ℚ) (cs : ChipSet) (colors : List Color),
        (create_fallback_distribution possible_values cs colors).get_player_value =
          (create_fallback_distribution possible_values cs colors).total_value_per_player) := by
  constructor
  · intro oracle numCores cs colors values B p d hnd hlen ht hd
    unfold evaluate_distribution at hd
    rcases hmc : maxChipsPerColor cs colors p with _ | maxc
    · rw [hmc] at hd; cases hd
    · rw [hmc] at hd
      obtain ⟨hmaxc, -⟩ := maxChipsPerColor_some hmc
      have htot : (maxc.map (fun e => e.2)).prod = totalCombinations cs colors p := by
        rw [hmaxc, List.map_map]
        simp [totalCombinations, Function.comp_def]
      simp only at hd
      rw [if_neg (by rw [htot]; omega)] at hd
      rcases hrr : reduceResults
          ((chunked (max 1000 ((maxc.map (fun e => e.2)).prod / (numCores * 4)))
            (productLists (maxc.map (fun e => List.range' 1 e.2)))).map
            (fun b => evaluate_combinations_batch b colors (colors.zip values) B))
          with _ | best
      · rw [hrr] at hd; cases hd
      · rw [hrr] at hd
        obtain ⟨b, hb, hfb⟩ := List.mem_map.mp (reduceResults_mem hrr)
        obtain ⟨q, hqb, hq1, _, _⟩ := evaluate_combinations_batch_some hfb
        have hqlen : q.length = colors.length := by
          have hf := mem_productLists (chunked_subset hb q hqb)
          have := hf.length_eq
          simpa [hmaxc] using this
        simp only [Option.some.injEq] at hd
        subst hd
        simp only [ChipDistribution.get_player_value, hq1]
        rw [List.map_snd_zip _ _ (le_of_eq hlen), List.map_snd_zip _ _ (le_of_eq hqlen),
          zip_mul_comm_sum]
        rw [map_lookup_zip_prod colors q values hnd hqlen hlen]
  · intro possible_values cs colors
    unfold create_fallback_distribution
    simp only [ChipDistribution.get_player_value]
    have hkeys : (colors.map (fun c => ((c : Color), (1 : ℕ)))).map (fun e => e.2) =
        colors.map (fun _ => (1 : ℕ)) := by
      rw [List.map_map]
      simp [Function.comp_def]
    rw [hkeys]
    apply zip_ones_sum
    · intro y hy
      obtain ⟨c, _, rfl⟩ := List.mem_map.mp hy
      rfl
    · simp

set_option maxRecDepth 100000 in
unseal Rat.add Rat.mul Rat.inv Rat.sub in
/-- C6 (counterexample): a record returned by the quantity search (sampled
path) whose recomputed per-player value differs from the stored field by
$33.  Inventory `{a: 500, b: 500}`, values `a ↦ 1, b ↦ 12`, target 20,
1 player: the combination space (250 000) crosses the threshold, the winning
candidate is the `high_value_focus` seed whose dict order is `[b, a]` while
the value dict order is `[a, b]`, so `get_player_value` pairs `a`'s value
with `b`'s quantity: stored total 16, recomputed 49. -/
theorem C6_counterexample :
    evaluate_distribution (fun _ _ => []) 4 ⟨[("a", 500), ("b", 500)]⟩
        ["a", "b"] [1, 12] 20 1 =
      some ⟨[("a", 1), ("b", 12)], [("b", 1), ("a", 4)], 16,
        [("a", 496), ("b", 499)], 1⟩ ∧
    ChipDistribution.get_player_value
        ⟨[("a", 1), ("b", 12)], [("b", 1), ("a", 4)], 16, [("a", 496), ("b", 499)], 1⟩ ≠
      ChipDistribution.total_value_per_player
        ⟨[("a", 1), ("b", 12)], [("b", 1), ("a", 4)], 16, [("a", 496), ("b", 499)], 1⟩ := by
  constructor
  · decide
  · decide

unseal Rat.add Rat.mul Rat.inv Rat.sub in
/-- C6 (witness): the amended theorem's batch-path conjunct applied at
inventory `{w: 4}`, one color of value 1, buy-in 2, 2 players: the returned
record's recomputed player value equals the stored total. -/
theorem C6_witness :
    ChipDistribution.get_player_value ⟨[("w", 1)], [("w", 2)], 2, [("w", 0)], 1⟩ =
      ChipDistribution.total_value_per_player
        ⟨[("w", 1)], [("w", 2)], 2, [("w", 0)], 1⟩ :=
  C6_total_value_roundtrip.1 (fun _ _ => []) 4 ⟨[("w", 4)]⟩ ["w"] [1] 2 2
    ⟨[("w", 1)], [("w", 2)], 2, [("w", 0)], 1⟩
    (by decide) (by decide) (by decide) (by decide)

/-! ## Claim C5 -/

/-- From `Forall₂` membership, every row element satisfies the pointwise
relation with some factor. -/
theorem forall₂_mem_left {α β : Type} {R : α → β → Prop} :
    ∀ {l₁ : List α} {l₂ : List β}, List.Forall₂ R l₁ l₂ →
      ∀ x ∈ l₁, ∃ r ∈ l₂, R x r := by
  intro l₁ l₂ h
  induction h with
  | nil => intro x hx; cases hx
  | @cons a b as bs hab _ ih =>
    intro x hx
    rcases List.mem_cons.mp hx with rfl | hx
    · exact ⟨b, List.mem_cons_self _ _, hab⟩
    · obtain ⟨r, hr, hxr⟩ := ih x hx
      exact ⟨r, List.mem_cons_of_mem _ hr, hxr⟩

/-- With at least one chip of every color and non-negative values, the row
value is at least the sum of the values. -/
theorem sum_le_dot :
    ∀ (q : List ℕ) (v : List ℚ), (∀ x ∈ q, 1 ≤ x) → (∀ y ∈ v, 0 ≤ y) →
      v.length = q.length → v.sum ≤ dot q v := by
  intro q
  induction q with
  | nil =>
    intro v _ _ hlen
    rw [List.length_eq_zero.mp hlen]
    simp [dot]
  | cons a as ih =>
    intro v hq hv hlen
    cases v with
    | nil => cases hlen
    | cons y ys =>
      simp only [dot, List.zip_cons_cons, List.map_cons, List.sum_cons]
      have ha : 1 ≤ a := hq a (List.mem_cons_self _ _)
      have hy : 0 ≤ y := hv y (List.mem_cons_self _ _)
      have htail : ys.sum ≤ dot as ys :=
        ih ys (fun x hx => hq x (List.mem_cons_of_mem _ hx))
          (fun y hy' => hv y (List.mem_cons_of_mem _ hy')) (by simpa using hlen)
      have haq : (1 : ℚ) ≤ (a : ℚ) := by exact_mod_cast ha
      have : y ≤ (a : ℚ) * y := le_mul_of_one_le_left hy haq
      unfold dot at htail
      linarith

/-- A batch whose every row misses the tolerance yields no result. -/
theorem evaluate_combinations_batch_none {batch : List (List ℕ)} {colors : List Color}
    {chip_values : List (Color × ℚ)} {B : ℚ}
    (h : ∀ q ∈ batch,
      ¬(|dot q (colors.map (fun c => lookupD chip_values c 0)) - B| ≤ B * (1/5))) :
    evaluate_combinations_batch batch colors chip_values B = none := by
  simp only [evaluate_combinations_batch]
  have hnil : (batch.map (fun q =>
      (q, |dot q (colors.map (fun c => lookupD chip_values c 0)) - B|))).filter
      (fun e => e.2 ≤ B * (1/5)) = [] := by
    rw [List.filter_eq_nil]
    intro e he
    obtain ⟨q, hq, rfl⟩ := List.mem_map.mp he
    simpa using h q hq
  rw [hnil]
  rfl

/-- A lookup into the value dict `colors.zip values` of non-negative values
is non-negative. -/
theorem lookupD_zip_nonneg {colors : List Color} {values : List ℚ} {c : Color}
    (hpos : ∀ v ∈ values, 0 ≤ v) : 0 ≤ lookupD (colors.zip values) c 0 := by
  rcases lookupD_eq_or_mem (colors.zip values) c 0 with h | ⟨e, he, _, hval⟩
  · exact le_of_eq h.symm
  · rw [hval]
    exact hpos e.2 (List.of_mem_zip he).2

/-- C5 (amended): the heuristics are not all result-preserving (see the
counterexample), but the high-average branch of the pruning is safe whenever
there are at least two colors: if the average assigned value exceeds the
per-participant target, every quantity combination of both search paths
(which all take at least one chip of every color) overshoots the 20%
tolerance, so the pruned permutation's quantity search would have returned
nothing anyway. -/
theorem C5_high_average_prune_safe {oracle : RandOracle} {numCores : ℕ}
    {cs : ChipSet} {colors : List Color} {values : List ℚ} {B : ℚ} {p : ℕ}
    (hn : 2 ≤ colors.length) (hnd : colors.Nodup)
    (hlen : values.length = colors.length)
    (hpos : ∀ v ∈ values, 0 ≤ v) (hB : 0 < B)
    (havg : B < values.sum / (values.length : ℚ)) :
    evaluate_distribution oracle numCores cs colors values B p = none := by
  have hnq : (2 : ℚ) ≤ (values.length : ℚ) := by
    rw [hlen]; exact_mod_cast hn
  have hlpos : (0 : ℚ) < (values.length : ℚ) := by linarith
  have hsum : B * (values.length : ℚ) < values.sum := by
    rw [div_eq_mul_inv] at havg
    calc B * (values.length : ℚ) < values.sum * (values.length : ℚ)⁻¹ * (values.length : ℚ) := by
          exact mul_lt_mul_of_pos_right havg hlpos
      _ = values.sum := by field_simp
  have h2B : 2 * B < values.sum := by nlinarith
  -- any total at least `values.sum` misses the 20% tolerance
  have hmiss : ∀ t : ℚ, values.sum ≤ t → ¬(|t - B| ≤ B * (1/5)) := by
    intro t hst habs
    have h1 : t - B ≤ |t - B| := le_abs_self _
    nlinarith
  unfold evaluate_distribution
  rcases hmc : maxChipsPerColor cs colors p with _ | maxc
  · rfl
  · obtain ⟨hmaxc, hposmax⟩ := maxChipsPerColor_some hmc
    have hmax : ∀ c ∈ colors, 1 ≤ lookupD maxc c 0 := by
      intro c hc
      rw [hmaxc, lookupD_maxc hc]
      exact hposmax c hc
    have hvals : colors.map (fun c => lookupD (colors.zip values) c 0) = values :=
      lookup_zip_self 0 colors values hnd hlen
    simp only
    by_cases hth : (maxc.map (fun e => e.2)).prod > maxCombinationsThreshold
    · rw [if_pos hth]
      unfold evaluate_distribution_sampled
      have hnone : sampledBest colors (colors.zip values) B
          (allCandidates oracle colors (colors.zip values) maxc B) = none := by
        apply sampledBest_none
        intro combo hcombo
        obtain ⟨hok, hcover⟩ := allCandidates_ok hmax hcombo
        have htot : values.sum ≤ sampledTotal colors (colors.zip values) combo := by
          unfold sampledTotal
          calc values.sum = (colors.map (fun c => lookupD (colors.zip values) c 0)).sum := by
                rw [hvals]
            _ ≤ _ := by
                apply List.sum_le_sum
                intro c hc
                have hv0 : 0 ≤ lookupD (colors.zip values) c 0 := lookupD_zip_nonneg hpos
                obtain ⟨e, he, hkey, hval⟩ := lookupD_mem_of_key 0 (hcover c hc)
                have h1 : 1 ≤ lookupD combo c 0 := by
                  rw [hval]
                  exact (hok e he).1
                have h1q : (1 : ℚ) ≤ ((lookupD combo c 0 : ℕ) : ℚ) := by exact_mod_cast h1
                exact le_mul_of_one_le_left hv0 h1q
        exact not_le.mp (hmiss _ htot)
      rw [hnone]
    · rw [if_neg hth]
      have hnone : reduceResults
          ((chunked (max 1000 ((maxc.map (fun e => e.2)).prod / (numCores * 4)))
            (productLists (maxc.map (fun e => List.range' 1 e.2)))).map
            (fun b => evaluate_combinations_batch b colors (colors.zip values) B)) = none := by
        apply reduceResults_all_none
        intro r hr
        obtain ⟨b, hb, rfl⟩ := List.mem_map.mp hr
        apply evaluate_combinations_batch_none
        intro q hq
        have hqall := chunked_subset hb q hq
        have hf := mem_productLists hqall
        have hq1 : ∀ x ∈ q, 1 ≤ x := by
          intro x hx
          obtain ⟨r', hr', hxr⟩ := forall₂_mem_left hf x hx
          rw [hmaxc, List.map_map] at hr'
          obtain ⟨c, _, rfl⟩ := List.mem_map.mp hr'
          exact (mem_range'_one hxr).1
        have hqlen : q.length = colors.length := by
          have := hf.length_eq
          simpa [hmaxc] using this
        rw [hvals]
        exact hmiss _ (sum_le_dot q values hq1 hpos (hlen.trans hqlen.symm))
      rw [hnone]

unseal Rat.add Rat.mul Rat.inv Rat.sub in
/-- C5 (counterexample): the heuristics do change the returned result.  With
inventory `{red: 10}`, pool `[1.1]`, buy-in 1 and 2 players, the heuristic
search prunes the only permutation (average value 1.1 > buy-in 1) and
returns the fallback record (`unused = max(0, 10 − 1) = 9`), while the plain
exhaustive enumeration evaluates it, finds the valid 1-chip assignment
(deviation 0.1 ≤ 20%) and returns it (`unused = 10 − 1·2 = 8`): two
different records. -/
theorem C5_counterexample :
    calculate_optimal_split (fun _ _ => []) 4 [11/10] ⟨[("red", 10)]⟩ 1 2 =
      .ok ⟨[("red", 11/10)], [("red", 1)], 11/10, [("red", 9)], 1⟩ ∧
    plainExhaustiveSearch (fun _ _ => []) 4 [11/10] ⟨[("red", 10)]⟩ 1 2 =
      .ok ⟨[("red", 11/10)], [("red", 1)], 11/10, [("red", 8)], 1⟩ ∧
    (⟨[("red", 11/10)], [("red", 1)], 11/10, [("red", 9)], 1⟩ : ChipDistribution) ≠
      ⟨[("red", 11/10)], [("red", 1)], 11/10, [("red", 8)], 1⟩ := by
  refine ⟨by decide, by decide, by decide⟩

unseal Rat.add Rat.mul Rat.inv Rat.sub in
/-- C5 (witness): the amended theorem applied at two colors of value 3 with
buy-in 1 (average 3 > 1): the quantity search returns nothing for this
permutation, so pruning it cannot change the search result. -/
theorem C5_witness :
    evaluate_distribution (fun _ _ => []) 4 ⟨[("a", 5), ("b", 5)]⟩
      ["a", "b"] [3, 3] 1 1 = none :=
  C5_high_average_prune_safe (by decide) (by decide) (by decide)
    (by decide) (by decide) (by decide)

/-! ## Claim C2 -/

/-- C2 (spec-modelled): in fixed-value distribution mode the permutation
search over value assignments is skipped — `calculate_distribution_with_values`
is exactly one invocation of the fixed-value quantity search with the single
supplied assignment — and any returned record carries the best integer
quantities within the 20% tolerance of the per-participant target: its
stored total deviates from the target by at most 20%, and its quantity row
maximizes the quantity-search score among all in-tolerance rows of the
combination space. -/
theorem C2_fixed_value_single_search {cs : ChipSet} {vals : List (Color × ℚ)}
    {p : ℕ} {B : ℚ} {d : ChipDistribution}
    (hd : calculate_distribution_with_values cs vals p B = some d) :
    calculate_distribution_with_values cs vals p B = quantitySearchFixed cs vals p B ∧
    |d.total_value_per_player - B| ≤ B * (1/5) ∧
    ∃ q ∈ fixedCombos cs vals p,
      d.chips_per_player = (vals.map (fun e => e.1)).zip q ∧
      ∀ q' ∈ fixedCombos cs vals p,
        |dot q' (vals.map (fun e => e.2)) - B| ≤ B * (1/5) →
        fixedScore vals B q' ≤ fixedScore vals B q := by
  refine ⟨rfl, ?_⟩
  simp only [calculate_distribution_with_values, quantitySearchFixed] at hd
  rcases hmatch : argmaxBy (fixedScore vals B)
      ((fixedCombos cs vals p).filter
        (fun q => |dot q (vals.map (fun e => e.2)) - B| ≤ B * (1/5))) with _ | q
  · rw [hmatch] at hd; cases hd
  · rw [hmatch] at hd
    have hqmem := argmaxBy_mem hmatch
    have hfilter := List.mem_filter.mp hqmem
    have htol : |dot q (vals.map (fun e => e.2)) - B| ≤ B * (1/5) := by
      exact_mod_cast of_decide_eq_true hfilter.2
    simp only [Option.some.injEq] at hd
    subst hd
    refine ⟨htol, q, hfilter.1, rfl, ?_⟩
    intro q' hq' htol'
    exact argmaxBy_le hmatch q' (List.mem_filter.mpr ⟨hq', by exact_mod_cast decide_eq_true htol'⟩)

set_option maxRecDepth 100000 in
unseal Rat.add Rat.mul Rat.inv Rat.sub in
/-- C2 (witness): Scenario D scaled down — inventory `{w: 10, r: 10}` with
fixed values `w ↦ $1, r ↦ $2`, 2 participants, target $5: the fixed-value
mode returns a record whose stored per-player total is within 20% of $5
(here it is exactly $5). -/
theorem C2_witness :
    |ChipDistribution.total_value_per_player
        ⟨[("w", 1), ("r", 2)], [("w", 5), ("r", 0)], 5, [("w", 0), ("r", 10)], 2⟩ - 5| ≤
      5 * (1/5) :=
  (@C2_fixed_value_single_search ⟨[("w", 10), ("r", 10)]⟩ [("w", 1), ("r", 2)] 2 5
    ⟨[("w", 1), ("r", 2)], [("w", 5), ("r", 0)], 5, [("w", 0), ("r", 10)], 2⟩
    (by decide)).2.1

end PokerChipSplit
